import Mathlib

/-!
Verification of the task-approval concurrency subsystem of the pwa-signer-nfc
repository, as described by its natural-language specification.

The development shallowly embeds the relevant source files:

* `src/src/backend/lock/mutex.ts` — the `Mutex` class, embedded as an explicit
  state machine over acquire/release events (`MutexState`, `mstep`).
* `src/src/class/emitter.ts` — the `EventEmitter` class, embedded as an
  association map from topic strings to handler registrations (`Emitter`).
  Handler functions are opaque in the embedding; what matters for the claims is
  their identity (wrapper identity for `once`) and their failure behaviour
  (return normally, throw synchronously, or return a rejecting promise).
* `src/src/backend/service/background.ts` — `BackgroundService` and
  `DatabaseController`, embedded as an executable transition system `Sys` over
  inbound frontend messages (`handleMsg`, `runMsgs`).

JavaScript scheduling model: the service worker is single-threaded; the only
macrotask sources relevant to the claims are inbound frontend messages, and the
awaited database promises settle in microtasks.  The embedding therefore
processes each inbound message to quiescence (all microtask continuations run)
before the next message is handled.  This realizes one legitimate interleaving
of the real event loop, which is all that is needed to refute a claim that
quantifies over every interleaving; invariants proved over all message scripts
hold of that schedule.  Two async completions that the source leaves unordered
(the un-awaited `setPermission` write racing the awaited `db.update` of
`executeTask`) are realized in the schedule where the un-awaited write settles
last; the event log (`Ev`) records the order of the atomic actions.
-/

namespace PwaSigner

/-! ## JavaScript values (one object level, as the claims require)

Settings values, tasks and message payloads are JavaScript values.  The code
only ever inspects one level of object structure (`task.type`, `task.key`,
`item.value._deleted`), so the embedding models primitives plus one level of
objects with primitive fields.  `pnull` stands for both `null` and `undefined`
(only `UPDATE_SETTINGS` distinguishes them, and its wire payloads come from
JSON, which has no `undefined`). -/

inductive Prim where
  | pnull : Prim
  | pbool : Bool → Prim
  | pnum : Int → Prim
  | pstr : String → Prim
deriving DecidableEq, Repr

/-- JavaScript truthiness of a primitive. -/
def Prim.truthy : Prim → Bool
  | .pnull => false
  | .pbool b => b
  | .pnum n => decide (n ≠ 0)
  | .pstr s => decide (s ≠ "")

inductive JSVal where
  | prim : Prim → JSVal
  | obj : List (String × Prim) → JSVal
deriving DecidableEq, Repr

def JSVal.truthy : JSVal → Bool
  | .prim p => p.truthy
  | .obj _ => true

/-- Association-list lookup, mirroring keyed access on objects and IndexedDB
object stores. -/
def assocGet {α : Type} : List (String × α) → String → Option α
  | [], _ => none
  | (k2, v) :: rest, k => if k2 = k then some v else assocGet rest k

/-- Property read `v[k]`: a missing property (or a read on a primitive) yields
`undefined`, modelled as `pnull`.  The source only reads properties behind a
truthiness guard or on values it just constructed, so the throwing reads on
`null`/`undefined` receivers are never exercised by the claims. -/
def JSVal.getField : JSVal → String → Prim
  | .prim _, _ => .pnull
  | .obj fields, k => (assocGet fields k).getD .pnull

/-- Keyed `put` on an IndexedDB object store (and keyed assignment on a plain
object): replace the value if the key is present, else add the entry.  IndexedDB
enumerates keys in sorted order; the claims proved here do not depend on
enumeration order (keys are unique), so the association list keeps insertion
order. -/
def dbPut {α : Type} : List (String × α) → String → α → List (String × α)
  | [], k, v => [(k, v)]
  | (k2, v2) :: rest, k, v =>
    if k2 = k then (k, v) :: rest else (k2, v2) :: dbPut rest k v

/-- Remove the first occurrence of an element (the effect of `Set.delete` on the
insertion-ordered JS `Set`, whose elements are distinct). -/
def eraseFirst {α : Type} [DecidableEq α] : List α → α → List α
  | [], _ => []
  | x :: xs, a => if x = a then xs else x :: eraseFirst xs a

/-- Index of the first occurrence of an element of a list, if any. -/
def firstIndexOf {α : Type} [DecidableEq α] : List α → α → Option Nat
  | [], _ => none
  | x :: xs, a => if x = a then some 0 else (firstIndexOf xs a).map (· + 1)

/-! ## Permission records and task classification
(`DatabaseController` permissions store, `background.ts` lines 43-58, 604-635) -/

structure PermissionValue where
  taskType : Prim
  approved : Bool
  remember : Bool
deriving DecidableEq, Repr

/-- `const taskType = task.type || 'default'` (background.ts line 45): the
`type` property if truthy, else the string `"default"`. -/
def taskTypeOf (t : JSVal) : Prim :=
  let v := t.getField "type"
  if v.truthy then v else .pstr "default"

/-- `DatabaseController.getPermission` (background.ts lines 604-613): the first
stored record whose `taskType` matches, in store enumeration order. -/
def getPermission : List (String × PermissionValue) → Prim → Option PermissionValue
  | [], _ => none
  | (_, v) :: rest, tt => if v.taskType = tt then some v else getPermission rest tt

/-! ## Messages and ghost events -/

/-- Backend-to-frontend messages (the subset the claims exercise), mirroring the
`MessageType` union of `src/src/types/index.ts`. -/
inductive Msg where
  | prompt : String → JSVal → Msg
  | dataUpdate : JSVal → Msg
  | settingsData : List (String × JSVal) → Msg
  | settingsUpdated : String → JSVal → Msg
  | relaysData : List (String × String) → Msg
  | permissionsData : List (String × PermissionValue) → Msg
  | error : String → Msg
deriving DecidableEq, Repr

/-- The payload of a `PROMPT_RESPONSE` message (`PromptResponse` in
`src/src/types/index.ts`): `remember` is optional. -/
structure PromptResponseV where
  approved : Bool
  remember : Option Bool
deriving DecidableEq, Repr

/-- Ghost instrumentation: the order of the atomic actions of the approval
pipeline.  Events are appended exactly where the corresponding source action
happens; they are not part of the program state proper. -/
inductive Ev where
  | lockAcquired : Ev
  | lockReleased : Ev
  | promptSent : String → Ev
  | responseConsumed : String → Ev
  | persistStarted : Ev
  | persistCompleted : Ev
  | taskExecuted : String → Ev
  | taskDropped : Ev
deriving DecidableEq, Repr

/-! ## The Mutex (`src/src/backend/lock/mutex.ts`)

`acquire` returns immediately with the lock if unlocked, else enqueues a
resolver; `release` pops the head resolver and hands the lock to it directly
(the resolver sets `locked = true`; `locked` is never observed `false` in
between), else unlocks.  The embedding is an event-driven state machine over
caller identifiers.  `handles` (outstanding, unreleased lock handles),
`enqueued` (callers whose `acquire` found the lock held, in call order) and
`granted` (callers woken from the queue, in wake order) are ghost fields: the
source tracks only `locked` and `queue`. -/

inductive MEvent where
  | acquire : Nat → MEvent
  | release : Nat → MEvent
deriving DecidableEq, Repr

structure MutexState where
  locked : Bool
  queue : List Nat
  handles : List Nat
  enqueued : List Nat
  granted : List Nat
deriving DecidableEq, Repr

def minit : MutexState := ⟨false, [], [], [], []⟩

/-- One acquire/release step.  `release c` is the holder `c` invoking the handle
returned by its `acquire`; the spec makes the handle callable once per acquire,
which the well-formedness predicate `mwf` below enforces. -/
def mstep (s : MutexState) : MEvent → MutexState
  | .acquire c =>
    if s.locked then
      { s with queue := s.queue ++ [c], enqueued := s.enqueued ++ [c] }
    else
      { s with locked := true, handles := c :: s.handles }
  | .release c =>
    match s.queue with
    | [] => { s with locked := false, handles := eraseFirst s.handles c }
    | next :: rest =>
      { s with queue := rest
               handles := next :: eraseFirst s.handles c
               granted := s.granted ++ [next] }

/-- Well-formed event traces: a release is performed only by a caller holding an
unreleased handle (the spec's "callable once per acquire"). -/
def mwf (s : MutexState) : List MEvent → Bool
  | [] => true
  | .acquire c :: evs => mwf (mstep s (.acquire c)) evs
  | .release c :: evs => decide (c ∈ s.handles) && mwf (mstep s (.release c)) evs

def mrunFrom (s : MutexState) (evs : List MEvent) : MutexState :=
  evs.foldl mstep s

def mrunTrace (evs : List MEvent) : MutexState := mrunFrom minit evs

/-- The safety properties of the mutex: a single outstanding handle exactly when
locked; never unlocked while waiters exist (release with a nonempty queue hands
the lock over directly); and the waiters woken so far (`granted`) followed by
the still-waiting queue equal the enqueue order — strict FIFO. -/
def MutexInv (s : MutexState) : Prop :=
  s.handles.length = (if s.locked then 1 else 0) ∧
  (s.locked = false → s.queue = []) ∧
  s.enqueued = s.granted ++ s.queue

/-! ## The EventEmitter (`src/src/class/emitter.ts`)

`eventMap : Map<topic, Set<handler>>`.  The embedding keeps the map as an
association list in insertion order (JS `Map` semantics) and each handler set as
a duplicate-free list in insertion order (JS `Set` semantics).  A registration
carries the identity of the registered function object (`wid`): `on` registers
the caller's function itself, `once` registers a fresh wrapper closure, so every
`once` call gets a fresh identity (`nextWid`).  A handler's observable behaviour
when invoked is opaque except for how it terminates. -/

inductive HBehavior where
  | ok : HBehavior
  | syncThrow : HBehavior
  | asyncReject : HBehavior
deriving DecidableEq, Repr

structure Reg where
  wid : Nat
  oneShot : Bool
  behavior : HBehavior
deriving DecidableEq, Repr

structure Emitter where
  eventMap : List (String × List Reg)
  nextWid : Nat
deriving DecidableEq, Repr

/-- `Set.add`: append unless already present. -/
def addIfAbsent (l : List Reg) (r : Reg) : List Reg :=
  if r ∈ l then l else l ++ [r]

/-- `getEventHandlers(t).add(r)`: create the (empty) handler set for `t` if
missing — `Map.set` appends the new entry — then add. -/
def mapAdd : List (String × List Reg) → String → Reg → List (String × List Reg)
  | [], t, r => [(t, [r])]
  | (t2, l) :: rest, t, r =>
    if t2 = t then (t2, addIfAbsent l r) :: rest else (t2, l) :: mapAdd rest t r

/-- `getEventHandlers(t).delete(r)` (the `off` path). -/
def mapRemove : List (String × List Reg) → String → Reg → List (String × List Reg)
  | [], _, _ => []
  | (t2, l) :: rest, t, r =>
    if t2 = t then (t2, eraseFirst l r) :: rest else (t2, l) :: mapRemove rest t r

/-- The side effect of a bare `getEventHandlers(t)` call: if `t` has no entry,
an empty handler set is created and stored. -/
def ensureTopic : List (String × List Reg) → String → List (String × List Reg)
  | [], t => [(t, [])]
  | (t2, l) :: rest, t =>
    if t2 = t then (t2, l) :: rest else (t2, l) :: ensureTopic rest t

/-- The handler list of a topic (empty if absent). -/
def mapGetD (m : List (String × List Reg)) (t : String) : List Reg :=
  (assocGet m t).getD []

/-- `on(t, h)` — `getEventHandlers` then `Set.add` of the handler itself. -/
def Emitter.on (e : Emitter) (t : String) (w : Nat) (b : HBehavior) : Emitter :=
  { e with eventMap := mapAdd e.eventMap t ⟨w, false, b⟩ }

/-- `once(t, h)` — registers a fresh `oneTimeHandler` wrapper that first
removes itself (`off`) and then calls `h`; the wrapper is a new closure on every
call, modelled by the fresh identity `e.nextWid`. -/
def Emitter.once (e : Emitter) (t : String) (b : HBehavior) : Emitter :=
  { e with eventMap := mapAdd e.eventMap t ⟨e.nextWid, true, b⟩
           nextWid := e.nextWid + 1 }

inductive EmitResult where
  | completed : EmitResult
  | threw : EmitResult
deriving DecidableEq, Repr

/-- The `forEach` body of `emit` over a snapshot of a handler set: a one-shot
wrapper removes itself before running its handler; a synchronous throw from a
handler propagates out of `forEach` (nothing in `emit` catches it), aborting the
remaining handlers; a returned rejecting promise is merely collected for
`Promise.allSettled`, which swallows rejections, so it does not affect
completion.  Iterating the snapshot matches live `Set.forEach` here because the
only concurrent mutation is a wrapper deleting itself (an already-visited
element).  Invoked handler identities are accumulated in call order. -/
def invokeSnapshot (t : String) : Emitter → List Reg → List Nat → Emitter × List Nat × EmitResult
  | e, [], acc => (e, acc, .completed)
  | e, r :: rest, acc =>
    let e2 := if r.oneShot then { e with eventMap := mapRemove e.eventMap t r } else e
    match r.behavior with
    | .syncThrow => (e2, acc ++ [r.wid], .threw)
    | _ => invokeSnapshot t e2 rest (acc ++ [r.wid])

/-- `emit(t, payload)` (emitter.ts lines 99-119): take the topic's handler set —
creating an empty entry if the topic is unknown — invoke each handler, then do
the same for the wildcard topic `*`; `Promise.allSettled` on the collected
promises is a fire-and-forget, so asynchronous failures never surface. -/
def Emitter.emit (e : Emitter) (t : String) : Emitter × List Nat × EmitResult :=
  let m1 := ensureTopic e.eventMap t
  let hs := mapGetD m1 t
  match invokeSnapshot t { e with eventMap := m1 } hs [] with
  | (e2, inv, .threw) => (e2, inv, .threw)
  | (e2, inv, .completed) =>
    let m2 := ensureTopic e2.eventMap "*"
    let ws := mapGetD m2 "*"
    invokeSnapshot "*" { e2 with eventMap := m2 } ws inv

/-- A sequence of independent `emit` calls of the given topics, accumulating all
invoked handler identities. -/
def emitSeq : Emitter → List String → Emitter × List Nat
  | e, [] => (e, [])
  | e, t :: ts =>
    let (e2, inv, _) := e.emit t
    let (e3, invs) := emitSeq e2 ts
    (e3, inv ++ invs)

/-- Number of registrations of handler identity `w` in a handler set. -/
def countW : List Reg → Nat → Nat
  | [], _ => 0
  | r :: rest, w => (if r.wid = w then 1 else 0) + countW rest w

/-- Number of registrations of handler identity `w` in the whole event map. -/
def widCount (m : List (String × List Reg)) (w : Nat) : Nat :=
  (m.map (fun p => countW p.2 w)).sum

/-- Number of occurrences in an invocation log. -/
def countOcc : List Nat → Nat → Nat
  | [], _ => 0
  | x :: xs, w => (if x = w then 1 else 0) + countOcc xs w

/-! ## The Background Orchestrator (`src/src/backend/service/background.ts`)

`BackgroundService` composed with its `DatabaseController` singleton.  The
private emitter of the service only ever receives `once` registrations under
fresh topics `prompt-<promptId>`; a registration is therefore represented by the
data the one-shot closure captures (`PendingReg`).  `crypto.randomUUID()` is
modelled by a fresh-identifier counter.  The mutex of the service is the `Mutex`
verified above; within the message-quiescence schedule described at the top of
the file every `acquire` runs while the lock is free and every `release` finds
an empty queue — the guard branches that would enqueue or wake a waiter are
marked by the `stuck` flag and proved unreachable
(`mutex_never_held_across_wait`), the full queue semantics being verified
separately on `MutexState`. -/

structure PendingReg where
  promptId : String
  task : JSVal
  taskType : Prim
deriving DecidableEq, Repr

/-- Entry creation for the orchestrator's emitter map (`getEventHandlers`). -/
def ensureTopicP : List (String × List PendingReg) → String → List (String × List PendingReg)
  | [], t => [(t, [])]
  | (t2, l) :: rest, t =>
    if t2 = t then (t2, l) :: rest else (t2, l) :: ensureTopicP rest t

/-- `once`: create the topic entry if needed and append the fresh wrapper. -/
def addRegP : List (String × List PendingReg) → String → PendingReg → List (String × List PendingReg)
  | [], t, r => [(t, [r])]
  | (t2, l) :: rest, t, r =>
    if t2 = t then (t2, l ++ [r]) :: rest else (t2, l) :: addRegP rest t r

/-- `off`: remove a registration from its topic's set. -/
def removeRegP : List (String × List PendingReg) → String → PendingReg → List (String × List PendingReg)
  | [], _, _ => []
  | (t2, l) :: rest, t, r =>
    if t2 = t then (t2, eraseFirst l r) :: rest else (t2, l) :: removeRegP rest t r

def regsFor (m : List (String × List PendingReg)) (t : String) : List PendingReg :=
  (assocGet m t).getD []

structure Sys where
  mutexLocked : Bool
  mutexWaiters : Nat
  stuck : Bool
  regs : List (String × List PendingReg)
  lastSent : Option Msg
  delivered : List Msg
  dataStore : List (String × JSVal)
  permStore : List (String × PermissionValue)
  nextId : Nat
  events : List Ev
deriving DecidableEq, Repr

def initSys : Sys :=
  { mutexLocked := false, mutexWaiters := 0, stuck := false, regs := []
    lastSent := none, delivered := [], dataStore := [], permStore := []
    nextId := 0, events := [] }

def logEv (s : Sys) (e : Ev) : Sys := { s with events := s.events ++ [e] }

/-- `crypto.randomUUID()`: a fresh identifier. -/
def freshId (s : Sys) : Sys × String :=
  ({ s with nextId := s.nextId + 1 }, "uuid-" ++ toString s.nextId)

/-- `sendToFrontend` (background.ts lines 243-260): the coalescing filter.  The
message is serialized (`JSON.stringify`) and compared with the previously sent
serialization; on a match the send is skipped, otherwise the message is posted
to every connected client.  Serialization of the modelled message type is
injective (each constructor carries a distinct `type` tag and a fixed field
layout), so comparing serialized strings is comparing messages. -/
def sendToFrontend (s : Sys) (m : Msg) : Sys :=
  if s.lastSent = some m then s
  else { s with lastSent := some m, delivered := s.delivered ++ [m] }

/-- Key coercion for `task.key` used as an IndexedDB key. -/
def primToKey : Prim → String
  | .pnull => "null"
  | .pbool b => if b then "true" else "false"
  | .pnum n => toString n
  | .pstr s => s

/-- `executeTask` (background.ts lines 87-100) in the schedule where the store
write succeeds: take `task.key` if truthy else a fresh UUID, `db.update` the
task under that key (a keyed `put` on the `data` store), then broadcast
`DATA_UPDATE`.  The key is returned (the resolved value of the task).  The
subscriber notification of `DatabaseController.update` is a no-op in the
service-worker process, whose controller instance has no subscribers. -/
def executeTask (s : Sys) (task : JSVal) : Sys × String :=
  let kp := task.getField "key"
  let (s1, key) := if kp.truthy then (s, primToKey kp) else freshId s
  let s2 := { s1 with dataStore := dbPut s1.dataStore key task }
  let s3 := logEv s2 (.taskExecuted key)
  (sendToFrontend s3 (.dataUpdate task), key)

/-- How a `processTask` call settles, as seen by its caller. -/
inductive TaskResult where
  | value : Option String → TaskResult
  | pending : String → TaskResult
  | blocked : TaskResult
deriving DecidableEq, Repr

/-- `mutex.release()` invoked from the `finally` clause: with no waiters the
lock is simply dropped; the wake-a-waiter branch is never reached in the
message-quiescence schedule (see `Sys` above) and is marked `stuck`. -/
def mutexRelease (s : Sys) : Sys :=
  if s.mutexWaiters ≠ 0 then { s with stuck := true }
  else logEv { s with mutexLocked := false } .lockReleased

/-- The prompt phase of `processTask` (background.ts lines 60-82):
`await mutex.acquire()`; then inside `try`: generate a `promptId`, broadcast
`PROMPT`, and return a promise whose executor registers the one-shot response
handler — at which point the function suspends and its `finally` clause runs
`lock.release()`.  The release therefore happens as soon as the pending promise
is returned, before any response arrives. -/
def promptPhase (s : Sys) (task : JSVal) (tt : Prim) : Sys × TaskResult :=
  if s.mutexLocked then ({ s with stuck := true }, .blocked)
  else
    let s1 := logEv { s with mutexLocked := true } .lockAcquired
    let (s2, pid) := freshId s1
    let s3 := logEv (sendToFrontend s2 (.prompt pid task)) (.promptSent pid)
    let s4 := { s3 with regs := addRegP s3.regs ("prompt-" ++ pid) ⟨pid, task, tt⟩ }
    (mutexRelease s4, .pending pid)

/-- `processTask` (background.ts lines 39-85): no approval required — execute
immediately; otherwise consult the stored permission for the task's type: a
record with `remember` set short-circuits to execute (if `approved`) or to
resolving `null` (the drop; `taskDropped` is ghost instrumentation of that
resolution), and any other outcome of the lookup falls through to the prompt
phase. -/
def processTask (s : Sys) (task : JSVal) (requiresApproval : Bool) : Sys × TaskResult :=
  if requiresApproval then
    let tt := taskTypeOf task
    match getPermission s.permStore tt with
    | some p =>
      if p.remember then
        if p.approved then
          let (s1, key) := executeTask s task
          (s1, .value (some key))
        else (logEv s .taskDropped, .value none)
      else promptPhase s task tt
    | none => promptPhase s task tt
  else
    let (s1, key) := executeTask s task
    (s1, .value (some key))

/-- The body of the one-shot prompt handler (background.ts lines 68-78), run
when the correlation emitter fires it: if `response.remember` is truthy, start
`db.setPermission(taskType, response.approved, true)` without awaiting it; then
resolve with `executeTask(task)` if approved, else with `null`.  The un-awaited
permission write races the awaited data-store write of `executeTask`; the
realized schedule settles it last (`persistCompleted` after the execution), one
of the two orders the source permits. -/
def runPromptHandler (s : Sys) (reg : PendingReg) (resp : PromptResponseV) : Sys :=
  let s1 := logEv s (.responseConsumed reg.promptId)
  if resp.remember.getD false then
    let s2 := logEv s1 .persistStarted
    let s3 := if resp.approved then (executeTask s2 reg.task).1
              else logEv s2 .taskDropped
    let (s4, key) := freshId s3
    let s5 := { s4 with permStore := dbPut s4.permStore key ⟨reg.taskType, resp.approved, true⟩ }
    logEv s5 .persistCompleted
  else
    if resp.approved then (executeTask s1 reg.task).1 else logEv s1 .taskDropped

/-- The `forEach` of `emit` over the snapshot of the topic's registrations: each
is a `once` wrapper, which removes itself (`off`) and then runs the captured
handler body. -/
def invokeRegsP (resp : PromptResponseV) : Sys → List PendingReg → Sys
  | s, [] => s
  | s, r :: rest =>
    let s1 := { s with regs := removeRegP s.regs ("prompt-" ++ r.promptId) r }
    invokeRegsP resp (runPromptHandler s1 r resp) rest

/-- `handleFrontendMessage` on `PROMPT_RESPONSE` (background.ts lines 266-267):
`emitter.emit('prompt-' + promptId, response)`.  `getEventHandlers` creates an
empty handler set for an unknown topic — and likewise for the wildcard topic
consulted afterwards — so even a response with no waiter leaves the map with new
(empty) entries.  No wildcard handler is ever registered by the service. -/
def emitPromptResponse (s : Sys) (pid : String) (resp : PromptResponseV) : Sys :=
  let topic := "prompt-" ++ pid
  let s1 := { s with regs := ensureTopicP s.regs topic }
  let hs := regsFor s1.regs topic
  let s2 := invokeRegsP resp s1 hs
  { s2 with regs := ensureTopicP s2.regs "*" }

/-- `item.value && item.value._deleted` — skip the entry when its value is
truthy and carries a truthy `_deleted` property (fetchSettings, lines 111-121);
the short circuit keeps falsy values from being dereferenced. -/
def isDeletedEntry (v : JSVal) : Bool :=
  v.truthy && (v.getField "_deleted").truthy

/-- One iteration of the `fetchSettings` loop: skip tombstoned entries, skip
entries with a falsy key, assign the rest into the accumulated object. -/
def settingsStep (acc : List (String × JSVal)) (kv : String × JSVal) : List (String × JSVal) :=
  if isDeletedEntry kv.2 then acc
  else if kv.1 ≠ "" then dbPut acc kv.1 kv.2 else acc

/-- The settings map `fetchSettings` builds from the raw `getAll` entries. -/
def settingsDataOf (entries : List (String × JSVal)) : List (String × JSVal) :=
  entries.foldl settingsStep []

/-- `fetchSettings` (background.ts lines 102-133) in the schedule where the
store read succeeds (`DatabaseController.getAll` catches its own errors, so the
service-level catch is exercised only through the standalone failure model
`fetchSettingsR` below). -/
def fetchSettingsM (s : Sys) : Sys :=
  sendToFrontend s (.settingsData (settingsDataOf s.dataStore))

/-- A deleted setting's stored value: `db.update({ _deleted: true }, key)`. -/
def tombstone : JSVal := .obj [("_deleted", .pbool true)]

/-- `updateSettings` (background.ts lines 135-164): `value === null` stores the
tombstone under the key, any other value is stored directly; then the single
`SETTINGS_UPDATED` message is sent, then `fetchSettings` re-broadcasts the full
(filtered) settings map. -/
def updateSettingsM (s : Sys) (key : String) (value : JSVal) : Sys :=
  let s1 :=
    if value = .prim .pnull then
      { s with dataStore := dbPut s.dataStore key tombstone }
    else
      { s with dataStore := dbPut s.dataStore key value }
  let s2 := sendToFrontend s1 (.settingsUpdated key value)
  fetchSettingsM s2

/-- Inbound frontend messages (the kinds the claims exercise). -/
inductive InMsg where
  | task : JSVal → Bool → InMsg
  | promptResponse : String → PromptResponseV → InMsg
  | updateSettings : String → JSVal → InMsg
  | fetchSettings : InMsg
deriving DecidableEq, Repr

/-- `handleFrontendMessage` (background.ts lines 262-281), each message being
processed to quiescence. -/
def handleMsg (s : Sys) : InMsg → Sys
  | .task t ra => (processTask s t ra).1
  | .promptResponse pid resp => emitPromptResponse s pid resp
  | .updateSettings k v => updateSettingsM s k v
  | .fetchSettings => fetchSettingsM s

def runMsgs (msgs : List InMsg) : Sys := msgs.foldl handleMsg initSys

/-! ## Read-dispatch failure handling (claim C6)

The three read handlers as functions of the outcome of the awaited store call,
exposing their catch structure.  The broadcast lists are the `sendToFrontend`
calls each handler makes. -/

/-- `fetchSettings` (background.ts lines 102-133): on success one
`SETTINGS_DATA`; on failure one `ERROR` then one empty `SETTINGS_DATA`. -/
def fetchSettingsR (r : Except String (List (String × JSVal))) : List Msg :=
  match r with
  | .ok settings => [.settingsData (settingsDataOf settings)]
  | .error e => [.error ("Failed to fetch settings: " ++ e), .settingsData []]

/-- `fetchRelays` (background.ts lines 166-203): the stored relay entries are
already `{key, value}` records, which the formatting pass returns unchanged; on
failure one `ERROR` then one empty `RELAYS_DATA`. -/
def fetchRelaysR (r : Except String (List (String × String))) : List Msg :=
  match r with
  | .ok relays => [.relaysData relays]
  | .error e => [.error ("Failed to fetch relays: " ++ e), .relaysData []]

/-- `fetchPermissions` (background.ts lines 283-290): on success one
`PERMISSIONS_DATA`; the catch clause only logs to the console — nothing is
broadcast on failure. -/
def fetchPermissionsR (r : Except String (List (String × PermissionValue))) : List Msg :=
  match r with
  | .ok ps => [.permissionsData ps]
  | .error _ => []

/-! ## Derived predicates and concrete scenarios -/

/-- The state of the service mutex between inbound messages: unlocked, no
queued waiters, and no unmodelled branch taken. -/
def MutexQuiescent (s : Sys) : Prop :=
  s.mutexLocked = false ∧ s.mutexWaiters = 0 ∧ s.stuck = false

/-- Two tasks of different unresolved types, submitted before either prompt is
answered, then both responses (the scenario of claim C1). -/
def twoPromptScript : List InMsg :=
  [.task (.obj [("type", .pstr "a")]) true,
   .task (.obj [("type", .pstr "b")]) true,
   .promptResponse "uuid-0" ⟨true, none⟩,
   .promptResponse "uuid-1" ⟨true, none⟩]

/-- One task of the given type needing a prompt, then its response with
`remember` set (the scenario of claim C4). -/
def promptScript (ty : String) (apr : Bool) : List InMsg :=
  [.task (.obj [("type", .pstr ty)]) true,
   .promptResponse ("uuid-" ++ toString 0) ⟨apr, some true⟩]

/-- A service started over an arbitrary permissions store (claim C3). -/
def sysWithPerms (ps : List (String × PermissionValue)) : Sys :=
  { initSys with permStore := ps }

/-- The outcome claim C3 asserts of `processTask` for a task whose permission
lookup returns `p`: with `remember` true the task short-circuits — no `PROMPT`
is broadcast, the task executes (one `DATA_UPDATE`, stored under its key) when
`approved`, and resolves to `null` with no broadcast and no store write when
not; with `remember` false the flow proceeds to the prompt (one `PROMPT`
broadcast, handler registered, result pending). -/
def PermissionCasesPost (ps : List (String × PermissionValue)) (t : JSVal)
    (p : PermissionValue) : Prop :=
  (p.remember = true → p.approved = true →
    (processTask (sysWithPerms ps) t true).1.delivered = [Msg.dataUpdate t] ∧
    ∃ key, (processTask (sysWithPerms ps) t true).2 = .value (some key) ∧
      (processTask (sysWithPerms ps) t true).1.dataStore = [(key, t)]) ∧
  (p.remember = true → p.approved = false →
    (processTask (sysWithPerms ps) t true).2 = .value none ∧
    (processTask (sysWithPerms ps) t true).1.delivered = [] ∧
    (processTask (sysWithPerms ps) t true).1.dataStore = []) ∧
  (p.remember = false →
    ∃ pid, (processTask (sysWithPerms ps) t true).2 = .pending pid ∧
      (processTask (sysWithPerms ps) t true).1.delivered = [Msg.prompt pid t] ∧
      regsFor (processTask (sysWithPerms ps) t true).1.regs ("prompt-" ++ pid) =
        [⟨pid, t, taskTypeOf t⟩])

/-- The event order claim C4 must be amended to (see `response_resume_order`):
the lock is released right after the prompt is broadcast (before the response
is consumed); on the response, persistence of the permission record is started
before the resumed execution (or drop) but settles only afterwards; and the
record is persisted with `remember := true`. -/
def ResponseOrderPost (ty : String) (apr : Bool) : Prop :=
  (runMsgs (promptScript ty apr)).events =
    [.lockAcquired, .promptSent ("uuid-" ++ toString 0), .lockReleased,
     .responseConsumed ("uuid-" ++ toString 0), .persistStarted,
     (if apr then Ev.taskExecuted ("uuid-" ++ toString 1) else Ev.taskDropped),
     .persistCompleted] ∧
  (runMsgs (promptScript ty apr)).permStore =
    [("uuid-" ++ toString (if apr then 2 else 1), ⟨.pstr ty, apr, true⟩)]

/-- Handler sets are duplicate-free (JS `Set` semantics) — an invariant of
every emitter built through `on`/`once`/`emit`. -/
def EmitterWf (e : Emitter) : Prop := ∀ p ∈ e.eventMap, p.2.Nodup

/-- Every registration of handler identity `w` in the map is one-shot (true in
particular of a freshly created `once` wrapper, which is the only registration
bearing its identity). -/
def WOneShot (e : Emitter) (w : Nat) : Prop :=
  ∀ p ∈ e.eventMap, ∀ r ∈ p.2, r.wid = w → r.oneShot = true

/-- An emitter with one plain subscriber, used to witness claim C5: the fresh
`once` wrapper (identity 8) fires at most once while the plain handler keeps
firing. -/
def demoEmitter : Emitter := ⟨[("task-done", [⟨7, false, .ok⟩])], 8⟩

/-- An emitter whose first handler throws synchronously (claim C9). -/
def throwingEmitter : Emitter :=
  ⟨[("task-done", [⟨1, false, .syncThrow⟩, ⟨2, false, .ok⟩])], 5⟩

/-- An emitter with well-behaved and promise-rejecting handlers, including a
wildcard subscriber (claim C9's witness). -/
def mixedEmitter : Emitter :=
  ⟨[("task-done", [⟨1, false, .ok⟩, ⟨2, true, .asyncReject⟩]),
    ("*", [⟨3, false, .asyncReject⟩])], 9⟩

/-- A service state with one pending prompt registration, used to witness claim
C8 with a response for a different, unknown promptId. -/
def strayRegSys : Sys :=
  { initSys with
      regs := [("prompt-uuid-7", [⟨"uuid-7", .obj [("type", .pstr "x")], .pstr "x"⟩])] }

/-- The system state after an `UPDATE_SETTINGS` with `value = null` (claim
C10). -/
def softDeleteSys (d : List (String × JSVal)) (k : String) : Sys :=
  handleMsg { initSys with dataStore := d } (.updateSettings k (.prim .pnull))

/-- What claim C10 asserts of a soft delete: the raw store maps the key to the
tombstone (and the `getAll` view still contains the pair), while the settings
map built for every `SETTINGS_DATA` broadcast omits the key; the handler
broadcasts the `SETTINGS_UPDATED` echo followed by the filtered settings
map. -/
def SoftDeletePost (d : List (String × JSVal)) (k : String) : Prop :=
  assocGet (softDeleteSys d k).dataStore k = some tombstone ∧
  (k, tombstone) ∈ (softDeleteSys d k).dataStore ∧
  assocGet (settingsDataOf (softDeleteSys d k).dataStore) k = none ∧
  (softDeleteSys d k).delivered =
    [Msg.settingsUpdated k (.prim .pnull),
     Msg.settingsData (settingsDataOf (softDeleteSys d k).dataStore)]

/-! # Theorems

## Association-list and store lemmas -/

theorem assocGet_dbPut_self {α : Type} (d : List (String × α)) (k : String) (v : α) :
    assocGet (dbPut d k v) k = some v := by
  induction d with
  | nil => simp [dbPut, assocGet]
  | cons hd tl ih =>
    obtain ⟨k2, v2⟩ := hd
    by_cases hk : k2 = k
    · simp [dbPut, hk, assocGet]
    · simp [dbPut, hk, assocGet, ih]

theorem assocGet_dbPut_ne {α : Type} (d : List (String × α)) (k2 k : String) (v : α)
    (h : k2 ≠ k) : assocGet (dbPut d k2 v) k = assocGet d k := by
  induction d with
  | nil => simp [dbPut, assocGet, h]
  | cons hd tl ih =>
    obtain ⟨k3, v3⟩ := hd
    by_cases hk : k3 = k2
    · subst hk
      simp [dbPut, assocGet, h]
    · simp [dbPut, hk, assocGet, ih]

theorem mem_dbPut_self {α : Type} (d : List (String × α)) (k : String) (v : α) :
    (k, v) ∈ dbPut d k v := by
  induction d with
  | nil => simp [dbPut]
  | cons hd tl ih =>
    obtain ⟨k2, v2⟩ := hd
    by_cases hk : k2 = k
    · simp [dbPut, hk]
    · simp only [dbPut, if_neg hk, List.mem_cons]
      exact Or.inr ih

theorem mem_dbPut_same_key {α : Type} (d : List (String × α)) (k : String) (v w : α)
    (hnd : (d.map Prod.fst).Nodup) (h : (k, v) ∈ dbPut d k w) : v = w := by
  induction d with
  | nil =>
    simp [dbPut] at h
    exact h
  | cons hd tl ih =>
    obtain ⟨k2, v2⟩ := hd
    simp only [List.map_cons, List.nodup_cons] at hnd
    by_cases hk : k2 = k
    · subst hk
      have hput : dbPut ((k2, v2) :: tl) k2 w = (k2, w) :: tl := by
        simp [dbPut]
      rw [hput, List.mem_cons] at h
      rcases h with h | h
      · simpa using h
      · exfalso
        exact hnd.1 (by simpa using List.mem_map_of_mem Prod.fst h)
    · simp only [dbPut, if_neg hk, List.mem_cons] at h
      rcases h with h | h
      · exfalso
        have hkk : k = k2 := by simpa using congrArg Prod.fst h
        exact hk hkk.symm
      · exact ih hnd.2 h

theorem settingsStep_assocGet_none (k : String) (acc : List (String × JSVal))
    (kv : String × JSVal) (hacc : assocGet acc k = none)
    (hkv : kv.1 = k → isDeletedEntry kv.2 = true) :
    assocGet (settingsStep acc kv) k = none := by
  unfold settingsStep
  by_cases hd : isDeletedEntry kv.2
  · simpa [hd] using hacc
  · have hk : kv.1 ≠ k := fun hc => hd (hkv hc)
    by_cases he : kv.1 = ""
    · simpa [hd, he] using hacc
    · simpa [hd, he, assocGet_dbPut_ne acc kv.1 k kv.2 hk] using hacc

theorem settingsDataOf_assocGet_none (k : String) (es : List (String × JSVal))
    (h : ∀ v, (k, v) ∈ es → isDeletedEntry v = true) :
    assocGet (settingsDataOf es) k = none := by
  suffices hgen : ∀ (es : List (String × JSVal)) (acc : List (String × JSVal)),
      assocGet acc k = none → (∀ v, (k, v) ∈ es → isDeletedEntry v = true) →
      assocGet (es.foldl settingsStep acc) k = none by
    exact hgen es [] rfl h
  intro es
  induction es with
  | nil => intro acc hacc _; simpa using hacc
  | cons kv tl ih =>
    intro acc hacc hes
    simp only [List.foldl_cons]
    refine ih (settingsStep acc kv) ?_ ?_
    · refine settingsStep_assocGet_none k acc kv hacc ?_
      intro hk
      apply hes kv.2
      have heq : kv = (k, kv.2) := by
        obtain ⟨a, b⟩ := kv
        simp only at hk
        rw [hk]
      rw [← heq]
      exact List.mem_cons_self kv tl
    · intro v hv
      exact hes v (List.mem_cons_of_mem kv hv)

/-! ## Mutex invariant (claim C2) -/

theorem mutexInv_init : MutexInv minit := by
  refine ⟨rfl, fun _ => rfl, rfl⟩

theorem mutexInv_acquire (s : MutexState) (c : Nat) (h : MutexInv s) :
    MutexInv (mstep s (.acquire c)) := by
  obtain ⟨h1, h2, h3⟩ := h
  by_cases hl : s.locked = true
  · have hstep : mstep s (.acquire c) =
        { s with queue := s.queue ++ [c], enqueued := s.enqueued ++ [c] } := by
      simp [mstep, hl]
    rw [hstep]
    refine ⟨?_, ?_, ?_⟩
    · show s.handles.length = if s.locked = true then 1 else 0
      exact h1
    · intro hcon
      simp [hl] at hcon
    · show s.enqueued ++ [c] = s.granted ++ (s.queue ++ [c])
      rw [h3, List.append_assoc]
  · have hh : s.handles = [] := by
      rw [if_neg hl] at h1
      exact List.length_eq_zero.mp h1
    have hstep : mstep s (.acquire c) =
        { s with locked := true, handles := c :: s.handles } := by
      simp [mstep, hl]
    rw [hstep]
    refine ⟨?_, ?_, ?_⟩
    · simp [hh]
    · simp
    · exact h3

theorem mutexInv_release (s : MutexState) (c : Nat) (h : MutexInv s)
    (hc : c ∈ s.handles) : MutexInv (mstep s (.release c)) := by
  obtain ⟨h1, h2, h3⟩ := h
  have hne : s.handles ≠ [] := by
    intro hnil
    rw [hnil] at hc
    exact absurd hc (List.not_mem_nil c)
  have hl : s.locked = true := by
    cases hls : s.locked
    · exfalso
      rw [hls] at h1
      simp at h1
      exact hne h1
    · rfl
  have hone : s.handles.length = 1 := by
    rw [hl] at h1
    simpa using h1
  obtain ⟨a, ha⟩ := List.length_eq_one.mp hone
  have hhandles : s.handles = [c] := by
    rw [ha] at hc
    simp at hc
    rw [ha, hc]
  cases hq : s.queue with
  | nil =>
    have hstep : mstep s (.release c) =
        { s with locked := false, handles := eraseFirst s.handles c } := by
      simp [mstep, hq]
    rw [hstep]
    refine ⟨?_, ?_, ?_⟩
    · simp [hhandles, eraseFirst]
    · intro _
      exact hq
    · show s.enqueued = s.granted ++ s.queue
      exact h3
  | cons next rest =>
    have hstep : mstep s (.release c) =
        { s with queue := rest, handles := next :: eraseFirst s.handles c,
                 granted := s.granted ++ [next] } := by
      simp [mstep, hq]
    rw [hstep]
    refine ⟨?_, ?_, ?_⟩
    · simp [hhandles, eraseFirst, hl]
    · intro hcon
      simp [hl] at hcon
    · show s.enqueued = (s.granted ++ [next]) ++ rest
      rw [h3, hq, List.append_assoc]
      simp

theorem mrunFrom_inv (evs : List MEvent) :
    ∀ (s : MutexState), MutexInv s → mwf s evs = true → MutexInv (mrunFrom s evs) := by
  induction evs with
  | nil => intro s h _; exact h
  | cons e evs ih =>
    intro s h hwf
    cases e with
    | acquire c =>
      have hwf2 : mwf (mstep s (.acquire c)) evs = true := by simpa [mwf] using hwf
      have hstep : MutexInv (mstep s (.acquire c)) := mutexInv_acquire s c h
      simpa [mrunFrom] using ih (mstep s (.acquire c)) hstep hwf2
    | release c =>
      have hsplit := hwf
      simp only [mwf, Bool.and_eq_true, decide_eq_true_eq] at hsplit
      have hstep : MutexInv (mstep s (.release c)) := mutexInv_release s c h hsplit.1
      simpa [mrunFrom] using ih (mstep s (.release c)) hstep hsplit.2

/-- Claim C2: for every well-formed sequence of acquire/release calls (each
release performed through an outstanding handle, the spec's "callable once per
acquire"), the mutex satisfies its safety contract: exactly one outstanding
`LockHandle` while locked and none while unlocked; the lock is never unlocked
while waiters are queued (a release with a nonempty queue hands the lock
directly to the head waiter, with no intermediate unlocked state); and the
callers woken from the queue so far, followed by the callers still queued,
equal the order in which the waiting callers called `acquire` — strict FIFO. -/
theorem mutex_single_holder_fifo (evs : List MEvent) (h : mwf minit evs = true) :
    MutexInv (mrunTrace evs) :=
  mrunFrom_inv evs minit mutexInv_init h

theorem mutex_single_holder_fifo_witness :
    mwf minit [MEvent.acquire 1, .acquire 2, .acquire 3,
               .release 1, .release 2, .release 3] = true ∧
    MutexInv (mrunTrace [MEvent.acquire 1, .acquire 2, .acquire 3,
                         .release 1, .release 2, .release 3]) :=
  ⟨by decide, mutex_single_holder_fifo _ (by decide)⟩

/-! ## Read-dispatch failure handling (claim C6) -/

/-- Claim C6, counterexample: a failing `FETCH_PERMISSIONS` read broadcasts
nothing at all — no `ERROR` message and no (empty) `PERMISSIONS_DATA` — because
the catch clause of `fetchPermissions` only logs to the console.  This refutes
the claim that every failed read is converted into exactly one `ERROR`
broadcast plus one empty/default data broadcast so that the caller always
receives a data message. -/
theorem fetch_permissions_failure_cx :
    fetchPermissionsR (Except.error "boom") = [] ∧
    ¬∃ d, Msg.permissionsData d ∈ fetchPermissionsR (Except.error "boom") := by
  refine ⟨rfl, ?_⟩
  rintro ⟨d, hd⟩
  simp [fetchPermissionsR] at hd

/-- Claim C6 as amended: a store failure never propagates past the read
handlers; `FETCH_SETTINGS` and `FETCH_RELAYS` convert it into exactly one
`ERROR` broadcast followed by one empty/default data broadcast, while a failing
`FETCH_PERMISSIONS` is swallowed with only a console log, broadcasting neither
an `ERROR` nor a data message. -/
theorem read_failure_broadcasts (e : String) :
    fetchSettingsR (.error e) =
      [.error ("Failed to fetch settings: " ++ e), .settingsData []] ∧
    fetchRelaysR (.error e) =
      [.error ("Failed to fetch relays: " ++ e), .relaysData []] ∧
    fetchPermissionsR (.error e) = [] :=
  ⟨rfl, rfl, rfl⟩

/-! ## The coalescing send filter (claim C7) -/

theorem sendToFrontend_of_ne (s : Sys) (m : Msg) (hne : s.lastSent ≠ some m) :
    sendToFrontend s m =
      { s with lastSent := some m, delivered := s.delivered ++ [m] } := by
  unfold sendToFrontend
  rw [if_neg hne]

theorem sendToFrontend_of_eq (s : Sys) (m : Msg) (heq : s.lastSent = some m) :
    sendToFrontend s m = s := by
  unfold sendToFrontend
  rw [if_pos heq]

/-- Claim C7: of two consecutive `sendToFrontend` calls the second is
suppressed exactly when its message equals the first (structural equality of
the modelled messages, which is what comparing their injective
`JSON.stringify` serializations decides): two identical consecutive sends
deliver exactly one message, and a second message differing in any field is
delivered. -/
theorem duplicate_send_suppressed (s : Sys) (m1 m2 : Msg)
    (h : s.lastSent ≠ some m1) :
    (sendToFrontend s m1).delivered = s.delivered ++ [m1] ∧
    ((sendToFrontend (sendToFrontend s m1) m2).delivered
        = (sendToFrontend s m1).delivered ↔ m2 = m1) ∧
    (m2 ≠ m1 →
      (sendToFrontend (sendToFrontend s m1) m2).delivered
        = s.delivered ++ [m1] ++ [m2]) := by
  have h1 := sendToFrontend_of_ne s m1 h
  by_cases hm : m2 = m1
  · refine ⟨by rw [h1], ?_, fun hc => absurd hm hc⟩
    subst hm
    have h2 : sendToFrontend (sendToFrontend s m2) m2 = sendToFrontend s m2 :=
      sendToFrontend_of_eq _ _ (by rw [h1])
    simp [h2]
  · have h2 : sendToFrontend (sendToFrontend s m1) m2 =
        { sendToFrontend s m1 with
            lastSent := some m2
            delivered := (sendToFrontend s m1).delivered ++ [m2] } := by
      refine sendToFrontend_of_ne _ _ ?_
      rw [h1]
      simp only [ne_eq, Option.some.injEq]
      exact fun hc => hm hc.symm
    refine ⟨by rw [h1], ?_, fun _ => ?_⟩
    · rw [h2]
      constructor
      · intro hc
        exfalso
        have hlen := congrArg List.length hc
        simp at hlen
      · intro hc
        exact absurd hc hm
    · rw [h2, h1]

theorem duplicate_send_suppressed_witness :
    (initSys.lastSent ≠ some (Msg.error "x")) ∧
    ((sendToFrontend initSys (Msg.error "x")).delivered = initSys.delivered ++ [Msg.error "x"] ∧
    ((sendToFrontend (sendToFrontend initSys (Msg.error "x")) (Msg.error "x")).delivered
        = (sendToFrontend initSys (Msg.error "x")).delivered ↔ Msg.error "x" = Msg.error "x") ∧
    (Msg.error "x" ≠ Msg.error "x" →
      (sendToFrontend (sendToFrontend initSys (Msg.error "x")) (Msg.error "x")).delivered
        = initSys.delivered ++ [Msg.error "x"] ++ [Msg.error "x"])) :=
  ⟨by decide, duplicate_send_suppressed initSys (Msg.error "x") (Msg.error "x") (by decide)⟩

/-! ## Orchestrator mutex-field lemmas and claims C1, C3, C4, C10 -/

theorem sendToFrontend_dataStore (s : Sys) (m : Msg) :
    (sendToFrontend s m).dataStore = s.dataStore := by
  unfold sendToFrontend
  split <;> rfl

theorem sendToFrontend_mutexLocked (s : Sys) (m : Msg) :
    (sendToFrontend s m).mutexLocked = s.mutexLocked := by
  unfold sendToFrontend
  split <;> rfl

theorem sendToFrontend_mutexWaiters (s : Sys) (m : Msg) :
    (sendToFrontend s m).mutexWaiters = s.mutexWaiters := by
  unfold sendToFrontend
  split <;> rfl

theorem sendToFrontend_stuck (s : Sys) (m : Msg) :
    (sendToFrontend s m).stuck = s.stuck := by
  unfold sendToFrontend
  split <;> rfl

theorem executeTask_mutexLocked (s : Sys) (t : JSVal) :
    (executeTask s t).1.mutexLocked = s.mutexLocked := by
  unfold executeTask
  by_cases hk : (JSVal.getField t "key").truthy <;>
    simp [hk, freshId, logEv, sendToFrontend_mutexLocked]

theorem executeTask_mutexWaiters (s : Sys) (t : JSVal) :
    (executeTask s t).1.mutexWaiters = s.mutexWaiters := by
  unfold executeTask
  by_cases hk : (JSVal.getField t "key").truthy <;>
    simp [hk, freshId, logEv, sendToFrontend_mutexWaiters]

theorem executeTask_stuck (s : Sys) (t : JSVal) :
    (executeTask s t).1.stuck = s.stuck := by
  unfold executeTask
  by_cases hk : (JSVal.getField t "key").truthy <;>
    simp [hk, freshId, logEv, sendToFrontend_stuck]

theorem runPromptHandler_mutex (s : Sys) (reg : PendingReg) (resp : PromptResponseV) :
    (runPromptHandler s reg resp).mutexLocked = s.mutexLocked ∧
    (runPromptHandler s reg resp).mutexWaiters = s.mutexWaiters ∧
    (runPromptHandler s reg resp).stuck = s.stuck := by
  unfold runPromptHandler
  by_cases hr : resp.remember.getD false <;> by_cases ha : resp.approved <;>
    simp [hr, ha, logEv, freshId, executeTask_mutexLocked, executeTask_mutexWaiters,
      executeTask_stuck]

theorem invokeRegsP_mutex (resp : PromptResponseV) (l : List PendingReg) :
    ∀ (s : Sys),
    (invokeRegsP resp s l).mutexLocked = s.mutexLocked ∧
    (invokeRegsP resp s l).mutexWaiters = s.mutexWaiters ∧
    (invokeRegsP resp s l).stuck = s.stuck := by
  induction l with
  | nil => intro s; exact ⟨rfl, rfl, rfl⟩
  | cons r rest ih =>
    intro s
    have h1 := runPromptHandler_mutex { s with regs := removeRegP s.regs ("prompt-" ++ r.promptId) r } r resp
    have h2 := ih (runPromptHandler { s with regs := removeRegP s.regs ("prompt-" ++ r.promptId) r } r resp)
    exact ⟨by rw [invokeRegsP, h2.1, h1.1], by rw [invokeRegsP, h2.2.1, h1.2.1],
           by rw [invokeRegsP, h2.2.2, h1.2.2]⟩

theorem quiescent_mutexRelease (s : Sys) (hw : s.mutexWaiters = 0) (hs : s.stuck = false) :
    MutexQuiescent (mutexRelease s) := by
  unfold mutexRelease
  rw [if_neg (by simp [hw])]
  exact ⟨rfl, hw, hs⟩

theorem quiescent_promptPhase (s : Sys) (t : JSVal) (tt : Prim)
    (hl : s.mutexLocked = false) (hw : s.mutexWaiters = 0) (hs : s.stuck = false) :
    MutexQuiescent (promptPhase s t tt).1 := by
  unfold promptPhase
  rw [if_neg (by simp [hl])]
  show MutexQuiescent (mutexRelease _)
  apply quiescent_mutexRelease
  · simp [logEv, freshId, sendToFrontend_mutexWaiters, hw]
  · simp [logEv, freshId, sendToFrontend_stuck, hs]

theorem quiescent_handleMsg (s : Sys) (m : InMsg) (h : MutexQuiescent s) :
    MutexQuiescent (handleMsg s m) := by
  obtain ⟨hl, hw, hs⟩ := h
  cases m with
  | task t ra =>
    show MutexQuiescent (processTask s t ra).1
    unfold processTask
    cases ra with
    | false =>
      show MutexQuiescent (executeTask s t).1
      exact ⟨by rw [executeTask_mutexLocked]; exact hl,
             by rw [executeTask_mutexWaiters]; exact hw,
             by rw [executeTask_stuck]; exact hs⟩
    | true =>
      simp only [if_pos rfl]
      cases hperm : getPermission s.permStore (taskTypeOf t) with
      | none =>
        simp only [hperm]
        exact quiescent_promptPhase s t _ hl hw hs
      | some p =>
        simp only [hperm]
        by_cases hrem : p.remember = true
        · rw [if_pos hrem]
          by_cases happ : p.approved = true
          · rw [if_pos happ]
            show MutexQuiescent (executeTask s t).1
            exact ⟨by rw [executeTask_mutexLocked]; exact hl,
                   by rw [executeTask_mutexWaiters]; exact hw,
                   by rw [executeTask_stuck]; exact hs⟩
          · rw [if_neg happ]
            exact ⟨hl, hw, hs⟩
        · rw [if_neg hrem]
          exact quiescent_promptPhase s t _ hl hw hs
  | promptResponse pid resp =>
    show MutexQuiescent (emitPromptResponse s pid resp)
    unfold emitPromptResponse
    obtain ⟨ha, hb, hc⟩ := invokeRegsP_mutex resp
      (regsFor (ensureTopicP s.regs ("prompt-" ++ pid)) ("prompt-" ++ pid))
      { s with regs := ensureTopicP s.regs ("prompt-" ++ pid) }
    exact ⟨by rw [ha]; exact hl, by rw [hb]; exact hw, by rw [hc]; exact hs⟩
  | updateSettings k v =>
    show MutexQuiescent (updateSettingsM s k v)
    unfold updateSettingsM fetchSettingsM
    by_cases hv : v = .prim .pnull <;>
      simp [hv, sendToFrontend_mutexLocked, sendToFrontend_mutexWaiters,
        sendToFrontend_stuck, hl, hw, hs, MutexQuiescent]
  | fetchSettings =>
    show MutexQuiescent (fetchSettingsM s)
    unfold fetchSettingsM
    exact ⟨by rw [sendToFrontend_mutexLocked]; exact hl,
           by rw [sendToFrontend_mutexWaiters]; exact hw,
           by rw [sendToFrontend_stuck]; exact hs⟩

/-- Claim C1 as amended: the Mutex does not serialize the human-response wait.
`processTask` releases the lock in its `finally` clause as soon as the pending
promise is returned — immediately after broadcasting the `PROMPT` and
registering the one-shot response handler — so the lock is held only across
that synchronous setup: after every inbound frontend message is processed the
mutex is unlocked, its waiter queue is empty, and the blocking branches of
`acquire`/`release` are never taken.  Consequently a second task acquires the
lock and broadcasts its `PROMPT` without waiting for the first task's
`PROMPT_RESPONSE` (the interleaving exhibited by
`second_prompt_before_first_response_cx`). -/
theorem mutex_not_held_across_wait (msgs : List InMsg) : MutexQuiescent (runMsgs msgs) := by
  suffices hgen : ∀ (s : Sys), MutexQuiescent s → MutexQuiescent (msgs.foldl handleMsg s) by
    exact hgen initSys ⟨rfl, rfl, rfl⟩
  induction msgs with
  | nil => intro s h; exact h
  | cons m rest ih =>
    intro s h
    exact ih (handleMsg s m) (quiescent_handleMsg s m h)


/-- Claim C1, counterexample: in the realized interleaving (each inbound
message processed to quiescence — a legitimate schedule of the single-threaded
event loop, with both tasks reaching the prompt phase), the second task's
`PROMPT` is broadcast (event index 4) strictly before the first task's
`PROMPT_RESPONSE` is consumed (event index 6), refuting the claim that the
second `PROMPT` is sent only after the first response has been processed. -/
theorem second_prompt_before_first_response_cx :
    firstIndexOf (runMsgs twoPromptScript).events (.promptSent "uuid-1") = some 4 ∧
    firstIndexOf (runMsgs twoPromptScript).events (.responseConsumed "uuid-0") = some 6 ∧
    (4 : Nat) < 6 := by
  decide

/-- Claim C3: for a task submitted with `requiresApproval = true` whose
permission lookup (`getPermission`, the first stored record for the task's
type) yields a record: with `remember` true no `PROMPT` is ever produced — the
task executes immediately when `approved` is true and resolves to `null` (no
execution, no `DATA_UPDATE`) when it is false; a found record with `remember`
false is treated as no record and the flow proceeds to the prompt. -/
theorem stored_permission_short_circuit (ps : List (String × PermissionValue))
    (t : JSVal) (p : PermissionValue)
    (hp : getPermission ps (taskTypeOf t) = some p) :
    PermissionCasesPost ps t p := by
  refine ⟨?_, ?_, ?_⟩
  · intro hrem happ
    have hstep : processTask (sysWithPerms ps) t true =
        ((executeTask (sysWithPerms ps) t).1,
         .value (some (executeTask (sysWithPerms ps) t).2)) := by
      simp [processTask, sysWithPerms, hp, hrem, happ]
    rw [hstep]
    by_cases hk : (JSVal.getField t "key").truthy
    · refine ⟨?_, ⟨primToKey (JSVal.getField t "key"), ?_, ?_⟩⟩ <;>
        simp [executeTask, hk, sysWithPerms, initSys, sendToFrontend, logEv, dbPut]
    · refine ⟨?_, ⟨"uuid-" ++ toString (0 : Nat), ?_, ?_⟩⟩ <;>
        simp [executeTask, hk, freshId, sysWithPerms, initSys, sendToFrontend, logEv, dbPut]
  · intro hrem happ
    have hstep : processTask (sysWithPerms ps) t true =
        (logEv (sysWithPerms ps) .taskDropped, .value none) := by
      simp [processTask, sysWithPerms, hp, hrem, happ]
    rw [hstep]
    exact ⟨rfl, rfl, rfl⟩
  · intro hrem
    have hstep : processTask (sysWithPerms ps) t true =
        promptPhase (sysWithPerms ps) t (taskTypeOf t) := by
      simp [processTask, sysWithPerms, hp, hrem]
    rw [hstep]
    refine ⟨"uuid-" ++ toString (0 : Nat), ?_, ?_, ?_⟩
    all_goals simp [promptPhase, sysWithPerms, initSys, mutexRelease, freshId,
      sendToFrontend, logEv, addRegP, regsFor, assocGet]

theorem stored_permission_short_circuit_witness :
    getPermission [("k", ⟨Prim.pstr "x", true, true⟩)]
      (taskTypeOf (.obj [("type", .pstr "x")])) = some ⟨.pstr "x", true, true⟩ ∧
    PermissionCasesPost [("k", ⟨.pstr "x", true, true⟩)]
      (.obj [("type", .pstr "x")]) ⟨.pstr "x", true, true⟩ :=
  ⟨by decide, stored_permission_short_circuit _ _ _ (by decide)⟩

/-- Claim C4, counterexample (task of type `"a"`, response approved with
`remember` set, in the realized schedule where the un-awaited `setPermission`
settles after the awaited execution): the Mutex is released (event index 2)
before the response is consumed (index 3) — not after, as the claim states —
and the task's execution completes (index 5) before the permission record's
persistence does (index 6), so persistence does not complete before
execution. -/
theorem release_and_persist_order_cx :
    firstIndexOf (runMsgs (promptScript "a" true)).events .lockReleased = some 2 ∧
    firstIndexOf (runMsgs (promptScript "a" true)).events
      (.responseConsumed "uuid-0") = some 3 ∧
    firstIndexOf (runMsgs (promptScript "a" true)).events
      (.taskExecuted "uuid-1") = some 5 ∧
    firstIndexOf (runMsgs (promptScript "a" true)).events .persistCompleted = some 6 := by
  decide

/-- Claim C4 as amended: on a prompt response carrying `remember`, persistence
of the new PermissionRecord is initiated before the suspended flow resumes but
is not awaited, so it completes only after the task has executed (if approved)
or been dropped; the Mutex was already released when the `PROMPT` was
broadcast, before the response arrived; and the record is persisted with the
task's type, the response's decision, and `remember := true`. -/
theorem response_resume_order (ty : String) (apr : Bool) (hty : ty ≠ "") :
    ResponseOrderPost ty apr := by
  cases apr <;>
    simp [ResponseOrderPost, promptScript, runMsgs, handleMsg, processTask,
      promptPhase, executeTask, runPromptHandler, invokeRegsP, emitPromptResponse,
      sendToFrontend, logEv, freshId, mutexRelease, initSys, taskTypeOf,
      getPermission, JSVal.getField, assocGet, Prim.truthy, hty, addRegP,
      removeRegP, ensureTopicP, regsFor, eraseFirst, dbPut]

theorem response_resume_order_witness :
    (("settings" : String) ≠ "") ∧ ResponseOrderPost "settings" true :=
  ⟨by decide, response_resume_order "settings" true (by decide)⟩

/-- Claim C10: deleting a setting (`UPDATE_SETTINGS` with `value = null`) is a
soft delete — the store afterwards maps the key to the `{ _deleted: true }`
tombstone (still present in `getAll` results), every `SETTINGS_DATA` payload
built from the store omits the key, and the handler broadcasts the
`SETTINGS_UPDATED` echo followed by the filtered settings map. -/
theorem soft_delete_tombstone (d : List (String × JSVal)) (k : String)
    (hnd : (d.map Prod.fst).Nodup) : SoftDeletePost d k := by
  have hds : (softDeleteSys d k).dataStore = dbPut d k tombstone := by
    simp [softDeleteSys, handleMsg, updateSettingsM, fetchSettingsM,
          sendToFrontend_dataStore, initSys]
  refine ⟨?_, ?_, ?_, ?_⟩
  · rw [hds]
    exact assocGet_dbPut_self d k tombstone
  · rw [hds]
    exact mem_dbPut_self d k tombstone
  · rw [hds]
    refine settingsDataOf_assocGet_none k (dbPut d k tombstone) ?_
    intro v hv
    have hv2 := mem_dbPut_same_key d k v tombstone hnd hv
    rw [hv2]
    decide
  · rw [hds]
    simp [SoftDeletePost, softDeleteSys, handleMsg, updateSettingsM,
      fetchSettingsM, sendToFrontend, initSys]

theorem soft_delete_tombstone_witness :
    (([("other", JSVal.prim (.pstr "v"))].map Prod.fst).Nodup) ∧
    SoftDeletePost [("other", JSVal.prim (.pstr "v"))] "mykey" :=
  ⟨by decide, soft_delete_tombstone _ _ (by decide)⟩


/-! ## The EventEmitter in general: claims C5, C8, C9 -/

theorem mem_eraseFirst_of_ne {α : Type} [DecidableEq α] (l : List α) (a x : α)
    (hx : x ∈ l) (hne : x ≠ a) : x ∈ eraseFirst l a := by
  induction l with
  | nil => cases hx
  | cons y ys ih =>
    rw [List.mem_cons] at hx
    by_cases hy : y = a
    · rw [eraseFirst, if_pos hy]
      rcases hx with h | h
      · exact absurd (by rw [h, hy]) hne
      · exact h
    · rw [eraseFirst, if_neg hy, List.mem_cons]
      rcases hx with h | h
      · exact Or.inl h
      · exact Or.inr (ih h)

theorem mem_of_mem_eraseFirst {α : Type} [DecidableEq α] (l : List α) (a x : α)
    (hx : x ∈ eraseFirst l a) : x ∈ l := by
  induction l with
  | nil =>
    rw [eraseFirst] at hx
    exact absurd hx (List.not_mem_nil x)
  | cons y ys ih =>
    rw [eraseFirst] at hx
    by_cases hy : y = a
    · rw [if_pos hy] at hx
      exact List.mem_cons_of_mem y hx
    · rw [if_neg hy, List.mem_cons] at hx
      rcases hx with h | h
      · exact List.mem_cons.mpr (Or.inl h)
      · exact List.mem_cons_of_mem y (ih h)

theorem nodup_eraseFirst {α : Type} [DecidableEq α] (l : List α) (a : α)
    (h : l.Nodup) : (eraseFirst l a).Nodup := by
  induction l with
  | nil =>
    rw [eraseFirst]
    exact List.nodup_nil
  | cons y ys ih =>
    rw [List.nodup_cons] at h
    rw [eraseFirst]
    by_cases hy : y = a
    · rw [if_pos hy]
      exact h.2
    · rw [if_neg hy, List.nodup_cons]
      exact ⟨fun hc => h.1 (mem_of_mem_eraseFirst ys a y hc), ih h.2⟩

theorem countOcc_append (l1 l2 : List Nat) (w : Nat) :
    countOcc (l1 ++ l2) w = countOcc l1 w + countOcc l2 w := by
  induction l1 with
  | nil => simp [countOcc]
  | cons x xs ih =>
    show countOcc (x :: (xs ++ l2)) w = _
    rw [countOcc, ih, countOcc]
    omega

theorem countW_pos_of_mem (l : List Reg) (r : Reg) (h : r ∈ l) :
    1 ≤ countW l r.wid := by
  induction l with
  | nil => cases h
  | cons x xs ih =>
    rw [List.mem_cons] at h
    simp only [countW]
    rcases h with h | h
    · have hxw : x.wid = r.wid := by rw [h]
      rw [if_pos hxw]
      omega
    · have := ih h
      omega

theorem countW_append (l1 l2 : List Reg) (w : Nat) :
    countW (l1 ++ l2) w = countW l1 w + countW l2 w := by
  induction l1 with
  | nil => simp [countW]
  | cons x xs ih =>
    show countW (x :: (xs ++ l2)) w = _
    rw [countW, ih, countW]
    omega

theorem countW_eraseFirst_ne (l : List Reg) (r : Reg) (w : Nat) (hne : r.wid ≠ w) :
    countW (eraseFirst l r) w = countW l w := by
  induction l with
  | nil => rfl
  | cons x xs ih =>
    rw [eraseFirst]
    by_cases hx : x = r
    · rw [if_pos hx]
      have hxw : ¬x.wid = w := by rw [hx]; exact hne
      simp [countW, hxw]
    · rw [if_neg hx]
      simp only [countW, ih]

theorem countW_eraseFirst_mem (l : List Reg) (r : Reg) (w : Nat)
    (hm : r ∈ l) (hw : r.wid = w) :
    countW (eraseFirst l r) w + 1 = countW l w := by
  induction l with
  | nil => cases hm
  | cons x xs ih =>
    rw [eraseFirst]
    by_cases hx : x = r
    · rw [if_pos hx]
      have hxw : x.wid = w := by rw [hx]; exact hw
      simp only [countW]
      rw [if_pos hxw]
      omega
    · rw [if_neg hx]
      rw [List.mem_cons] at hm
      rcases hm with h | h
      · exact absurd h.symm hx
      · simp only [countW]
        rw [← ih h]
        omega

theorem assocGet_mem {α : Type} (m : List (String × α)) (t : String) (l : α)
    (h : assocGet m t = some l) : (t, l) ∈ m := by
  induction m with
  | nil => simp [assocGet] at h
  | cons p rest ih =>
    obtain ⟨t2, l2⟩ := p
    rw [assocGet] at h
    by_cases ht : t2 = t
    · rw [if_pos ht] at h
      injection h with h2
      subst ht
      rw [← h2]
      exact List.mem_cons_self _ _
    · rw [if_neg ht] at h
      exact List.mem_cons_of_mem _ (ih h)

theorem nodup_mapGetD (m : List (String × List Reg)) (t : String)
    (h : ∀ p ∈ m, p.2.Nodup) : (mapGetD m t).Nodup := by
  unfold mapGetD
  cases hget : assocGet m t with
  | none => simp
  | some l =>
    simp only [Option.getD]
    exact h (t, l) (assocGet_mem m t l hget)

theorem oneShot_mapGetD (m : List (String × List Reg)) (t : String) (w : Nat)
    (h : ∀ p ∈ m, ∀ r ∈ p.2, r.wid = w → r.oneShot = true) :
    ∀ r ∈ mapGetD m t, r.wid = w → r.oneShot = true := by
  unfold mapGetD
  cases hget : assocGet m t with
  | none => simp
  | some l =>
    simp only [Option.getD]
    exact h (t, l) (assocGet_mem m t l hget)

theorem mapGetD_mapRemove_self (m : List (String × List Reg)) (t : String) (r : Reg) :
    mapGetD (mapRemove m t r) t = eraseFirst (mapGetD m t) r := by
  induction m with
  | nil => simp [mapRemove, mapGetD, assocGet, eraseFirst]
  | cons p rest ih =>
    obtain ⟨t2, l⟩ := p
    by_cases ht : t2 = t
    · simp [mapRemove, ht, mapGetD, assocGet]
    · simp only [mapRemove, if_neg ht]
      simp only [mapGetD, assocGet, if_neg ht] at ih ⊢
      exact ih

theorem mapGetD_mapRemove_ne (m : List (String × List Reg)) (t t2 : String) (r : Reg)
    (hne : t ≠ t2) : mapGetD (mapRemove m t r) t2 = mapGetD m t2 := by
  induction m with
  | nil => simp [mapRemove]
  | cons p rest ih =>
    obtain ⟨t3, l⟩ := p
    by_cases ht : t3 = t
    · have ht2 : ¬t3 = t2 := by rw [ht]; exact hne
      simp [mapRemove, ht, mapGetD, assocGet, ht2, hne]
    · by_cases ht2 : t3 = t2
      · have h3 : ¬t2 = t := fun hc => ht (ht2.trans hc)
        simp [mapRemove, ht, mapGetD, assocGet, ht2, h3]
      · simp only [mapRemove, if_neg ht]
        simp only [mapGetD, assocGet, if_neg ht2] at ih ⊢
        exact ih

theorem mapGetD_ensureTopic (m : List (String × List Reg)) (t t2 : String) :
    mapGetD (ensureTopic m t) t2 = mapGetD m t2 := by
  induction m with
  | nil =>
    by_cases ht : t = t2 <;> simp [ensureTopic, mapGetD, assocGet, ht]
  | cons p rest ih =>
    obtain ⟨t3, l⟩ := p
    by_cases ht : t3 = t
    · simp [ensureTopic, ht]
    · by_cases ht2 : t3 = t2
      · have h3 : ¬t2 = t := fun hc => ht (ht2.trans hc)
        simp [ensureTopic, ht, mapGetD, assocGet, ht2, h3]
      · simp only [ensureTopic, if_neg ht]
        simp only [mapGetD, assocGet, if_neg ht2] at ih ⊢
        exact ih

theorem widCount_cons (t2 : String) (l : List Reg) (rest : List (String × List Reg))
    (w : Nat) : widCount ((t2, l) :: rest) w = countW l w + widCount rest w := by
  simp [widCount]

theorem widCount_mapRemove_ne (m : List (String × List Reg)) (t : String) (r : Reg)
    (w : Nat) (hne : r.wid ≠ w) : widCount (mapRemove m t r) w = widCount m w := by
  induction m with
  | nil => rfl
  | cons p rest ih =>
    obtain ⟨t2, l⟩ := p
    by_cases ht : t2 = t
    · simp only [mapRemove, if_pos ht, widCount_cons]
      rw [countW_eraseFirst_ne l r w hne]
    · simp only [mapRemove, if_neg ht, widCount_cons]
      rw [ih]

theorem widCount_mapRemove_mem (m : List (String × List Reg)) (t : String) (r : Reg)
    (w : Nat) (hmem : r ∈ mapGetD m t) (hw : r.wid = w) :
    widCount (mapRemove m t r) w + 1 = widCount m w := by
  induction m with
  | nil => simp [mapGetD, assocGet] at hmem
  | cons p rest ih =>
    obtain ⟨t2, l⟩ := p
    by_cases ht : t2 = t
    · have hl : r ∈ l := by
        simpa [mapGetD, assocGet, ht] using hmem
      simp only [mapRemove, if_pos ht, widCount_cons]
      rw [← countW_eraseFirst_mem l r w hl hw]
      omega
    · have hm2 : r ∈ mapGetD rest t := by
        simpa [mapGetD, assocGet, ht] using hmem
      simp only [mapRemove, if_neg ht, widCount_cons]
      rw [← ih hm2]
      omega

theorem widCount_ensureTopic (m : List (String × List Reg)) (t : String) (w : Nat) :
    widCount (ensureTopic m t) w = widCount m w := by
  induction m with
  | nil => simp [ensureTopic, widCount, countW]
  | cons p rest ih =>
    obtain ⟨t2, l⟩ := p
    by_cases ht : t2 = t
    · rw [ensureTopic, if_pos ht]
    · rw [ensureTopic, if_neg ht, widCount_cons, widCount_cons, ih]

theorem wf_mapRemove (m : List (String × List Reg)) (t : String) (r : Reg)
    (h : ∀ p ∈ m, p.2.Nodup) : ∀ p ∈ mapRemove m t r, p.2.Nodup := by
  induction m with
  | nil => simp [mapRemove]
  | cons q rest ih =>
    obtain ⟨t2, l⟩ := q
    intro p hp
    by_cases ht : t2 = t
    · rw [mapRemove, if_pos ht] at hp
      rcases List.mem_cons.mp hp with hh | hh
      · rw [hh]
        exact nodup_eraseFirst l r (h (t2, l) (List.mem_cons_self _ _))
      · exact h p (List.mem_cons_of_mem _ hh)
    · rw [mapRemove, if_neg ht] at hp
      rcases List.mem_cons.mp hp with hh | hh
      · rw [hh]
        exact h (t2, l) (List.mem_cons_self _ _)
      · exact ih (fun q hq => h q (List.mem_cons_of_mem _ hq)) p hh

theorem wf_ensureTopic (m : List (String × List Reg)) (t : String)
    (h : ∀ p ∈ m, p.2.Nodup) : ∀ p ∈ ensureTopic m t, p.2.Nodup := by
  induction m with
  | nil =>
    intro p hp
    rw [ensureTopic] at hp
    rcases List.mem_cons.mp hp with hh | hh
    · rw [hh]; exact List.nodup_nil
    · cases hh
  | cons q rest ih =>
    obtain ⟨t2, l⟩ := q
    intro p hp
    by_cases ht : t2 = t
    · rw [ensureTopic, if_pos ht] at hp
      exact h p hp
    · rw [ensureTopic, if_neg ht] at hp
      rcases List.mem_cons.mp hp with hh | hh
      · rw [hh]
        exact h (t2, l) (List.mem_cons_self _ _)
      · exact ih (fun q hq => h q (List.mem_cons_of_mem _ hq)) p hh

theorem wone_mapRemove (m : List (String × List Reg)) (t : String) (r : Reg) (w : Nat)
    (h : ∀ p ∈ m, ∀ r2 ∈ p.2, r2.wid = w → r2.oneShot = true) :
    ∀ p ∈ mapRemove m t r, ∀ r2 ∈ p.2, r2.wid = w → r2.oneShot = true := by
  induction m with
  | nil => simp [mapRemove]
  | cons q rest ih =>
    obtain ⟨t2, l⟩ := q
    intro p hp
    by_cases ht : t2 = t
    · rw [mapRemove, if_pos ht] at hp
      rcases List.mem_cons.mp hp with hh | hh
      · rw [hh]
        intro r2 hr2
        exact h (t2, l) (List.mem_cons_self _ _) r2 (mem_of_mem_eraseFirst l r r2 hr2)
      · exact h p (List.mem_cons_of_mem _ hh)
    · rw [mapRemove, if_neg ht] at hp
      rcases List.mem_cons.mp hp with hh | hh
      · rw [hh]
        exact h (t2, l) (List.mem_cons_self _ _)
      · exact ih (fun q hq => h q (List.mem_cons_of_mem _ hq)) p hh

theorem wone_ensureTopic (m : List (String × List Reg)) (t : String) (w : Nat)
    (h : ∀ p ∈ m, ∀ r2 ∈ p.2, r2.wid = w → r2.oneShot = true) :
    ∀ p ∈ ensureTopic m t, ∀ r2 ∈ p.2, r2.wid = w → r2.oneShot = true := by
  induction m with
  | nil =>
    intro p hp
    rw [ensureTopic] at hp
    rcases List.mem_cons.mp hp with hh | hh
    · rw [hh]
      intro r2 hr2
      cases hr2
    · cases hh
  | cons q rest ih =>
    obtain ⟨t2, l⟩ := q
    intro p hp
    by_cases ht : t2 = t
    · rw [ensureTopic, if_pos ht] at hp
      exact h p hp
    · rw [ensureTopic, if_neg ht] at hp
      rcases List.mem_cons.mp hp with hh | hh
      · rw [hh]
        exact h (t2, l) (List.mem_cons_self _ _)
      · exact ih (fun q hq => h q (List.mem_cons_of_mem _ hq)) p hh

theorem invokeSnapshot_wf (t : String) (hs : List Reg) :
    ∀ (e : Emitter) (acc : List Nat), (∀ p ∈ e.eventMap, p.2.Nodup) →
    ∀ p ∈ (invokeSnapshot t e hs acc).1.eventMap, p.2.Nodup := by
  induction hs with
  | nil =>
    intro e acc h
    simpa [invokeSnapshot] using h
  | cons r rest ih =>
    intro e acc h
    have h2 : ∀ p ∈ (if r.oneShot = true then
        { e with eventMap := mapRemove e.eventMap t r } else e).eventMap, p.2.Nodup := by
      split
      · exact wf_mapRemove e.eventMap t r h
      · exact h
    cases hb : r.behavior with
    | syncThrow =>
      simp only [invokeSnapshot, hb]
      exact h2
    | ok =>
      simp only [invokeSnapshot, hb]
      exact ih _ _ h2
    | asyncReject =>
      simp only [invokeSnapshot, hb]
      exact ih _ _ h2

theorem invokeSnapshot_wone (t : String) (w : Nat) (hs : List Reg) :
    ∀ (e : Emitter) (acc : List Nat),
    (∀ p ∈ e.eventMap, ∀ r2 ∈ p.2, r2.wid = w → r2.oneShot = true) →
    ∀ p ∈ (invokeSnapshot t e hs acc).1.eventMap, ∀ r2 ∈ p.2, r2.wid = w → r2.oneShot = true := by
  induction hs with
  | nil =>
    intro e acc h
    simpa [invokeSnapshot] using h
  | cons r rest ih =>
    intro e acc h
    have h2 : ∀ p ∈ (if r.oneShot = true then
        { e with eventMap := mapRemove e.eventMap t r } else e).eventMap,
        ∀ r2 ∈ p.2, r2.wid = w → r2.oneShot = true := by
      split
      · exact wone_mapRemove e.eventMap t r w h
      · exact h
    cases hb : r.behavior with
    | syncThrow =>
      simp only [invokeSnapshot, hb]
      exact h2
    | ok =>
      simp only [invokeSnapshot, hb]
      exact ih _ _ h2
    | asyncReject =>
      simp only [invokeSnapshot, hb]
      exact ih _ _ h2

theorem invokeSnapshot_bound (t : String) (w : Nat) (hs : List Reg) :
    ∀ (e : Emitter) (acc : List Nat),
    hs.Nodup →
    (∀ r ∈ hs, r ∈ mapGetD e.eventMap t) →
    (∀ r ∈ hs, r.wid = w → r.oneShot = true) →
    widCount (invokeSnapshot t e hs acc).1.eventMap w
        + countOcc (invokeSnapshot t e hs acc).2.1 w
      ≤ widCount e.eventMap w + countOcc acc w := by
  induction hs with
  | nil =>
    intro e acc _ _ _
    simp [invokeSnapshot]
  | cons r rest ih =>
    intro e acc hnd hsub hone
    rw [List.nodup_cons] at hnd
    have hsub2 : ∀ x ∈ rest, x ∈ mapGetD (if r.oneShot = true then
        { e with eventMap := mapRemove e.eventMap t r } else e).eventMap t := by
      intro x hx
      split
      · show x ∈ mapGetD (mapRemove e.eventMap t r) t
        rw [mapGetD_mapRemove_self]
        exact mem_eraseFirst_of_ne _ r x (hsub x (List.mem_cons_of_mem _ hx))
          (fun hc => hnd.1 (hc ▸ hx))
      · exact hsub x (List.mem_cons_of_mem _ hx)
    have hone2 : ∀ x ∈ rest, x.wid = w → x.oneShot = true :=
      fun x hx hxw => hone x (List.mem_cons_of_mem _ hx) hxw
    by_cases hw : r.wid = w
    · have honer : r.oneShot = true := hone r (List.mem_cons_self _ _) hw
      have hmem : r ∈ mapGetD e.eventMap t := hsub r (List.mem_cons_self _ _)
      have hcount : widCount (if r.oneShot = true then
          { e with eventMap := mapRemove e.eventMap t r } else e).eventMap w + 1
          = widCount e.eventMap w := by
        rw [if_pos honer]
        exact widCount_mapRemove_mem e.eventMap t r w hmem hw
      have hocc : countOcc (acc ++ [r.wid]) w = countOcc acc w + 1 := by
        rw [countOcc_append]
        simp [countOcc, hw]
      cases hb : r.behavior with
      | syncThrow =>
        simp only [invokeSnapshot, hb]
        rw [hocc]
        omega
      | ok =>
        simp only [invokeSnapshot, hb]
        have hrec := ih _ (acc ++ [r.wid]) hnd.2 hsub2 hone2
        rw [hocc] at hrec
        omega
      | asyncReject =>
        simp only [invokeSnapshot, hb]
        have hrec := ih _ (acc ++ [r.wid]) hnd.2 hsub2 hone2
        rw [hocc] at hrec
        omega
    · have hcount : widCount (if r.oneShot = true then
          { e with eventMap := mapRemove e.eventMap t r } else e).eventMap w
          = widCount e.eventMap w := by
        split
        · exact widCount_mapRemove_ne e.eventMap t r w hw
        · rfl
      have hocc : countOcc (acc ++ [r.wid]) w = countOcc acc w := by
        rw [countOcc_append]
        simp [countOcc, hw]
      cases hb : r.behavior with
      | syncThrow =>
        simp only [invokeSnapshot, hb]
        rw [hocc]
        omega
      | ok =>
        simp only [invokeSnapshot, hb]
        have hrec := ih _ (acc ++ [r.wid]) hnd.2 hsub2 hone2
        rw [hocc] at hrec
        omega
      | asyncReject =>
        simp only [invokeSnapshot, hb]
        have hrec := ih _ (acc ++ [r.wid]) hnd.2 hsub2 hone2
        rw [hocc] at hrec
        omega

theorem emit_eq (e : Emitter) (t : String) :
    e.emit t =
      match invokeSnapshot t { e with eventMap := ensureTopic e.eventMap t }
          (mapGetD (ensureTopic e.eventMap t) t) [] with
      | (e2, inv, .threw) => (e2, inv, .threw)
      | (e2, inv, .completed) =>
        invokeSnapshot "*" { e2 with eventMap := ensureTopic e2.eventMap "*" }
          (mapGetD (ensureTopic e2.eventMap "*") "*") inv := rfl

theorem emit_eq_threw (e : Emitter) (t : String) (e2 : Emitter) (inv : List Nat)
    (hres : invokeSnapshot t { e with eventMap := ensureTopic e.eventMap t }
      (mapGetD (ensureTopic e.eventMap t) t) [] = (e2, inv, .threw)) :
    e.emit t = (e2, inv, .threw) := by
  rw [emit_eq, hres]

theorem emit_eq_completed (e : Emitter) (t : String) (e2 : Emitter) (inv : List Nat)
    (hres : invokeSnapshot t { e with eventMap := ensureTopic e.eventMap t }
      (mapGetD (ensureTopic e.eventMap t) t) [] = (e2, inv, .completed)) :
    e.emit t = invokeSnapshot "*" { e2 with eventMap := ensureTopic e2.eventMap "*" }
      (mapGetD (ensureTopic e2.eventMap "*") "*") inv := by
  rw [emit_eq, hres]

theorem emit_w (e : Emitter) (t : String) (w : Nat)
    (hwf : EmitterWf e) (hwone : WOneShot e w) :
    countOcc (e.emit t).2.1 w + widCount (e.emit t).1.eventMap w
      ≤ widCount e.eventMap w ∧
    EmitterWf (e.emit t).1 ∧ WOneShot (e.emit t).1 w := by
  have hwf1 : ∀ p ∈ (ensureTopic e.eventMap t), p.2.Nodup :=
    wf_ensureTopic e.eventMap t hwf
  have hwone1 : ∀ p ∈ (ensureTopic e.eventMap t), ∀ r2 ∈ p.2, r2.wid = w → r2.oneShot = true :=
    wone_ensureTopic e.eventMap t w hwone
  have hnd1 : (mapGetD (ensureTopic e.eventMap t) t).Nodup :=
    nodup_mapGetD _ t hwf1
  have hone1 : ∀ r ∈ mapGetD (ensureTopic e.eventMap t) t, r.wid = w → r.oneShot = true :=
    oneShot_mapGetD _ t w hwone1
  have hwid1 : widCount (ensureTopic e.eventMap t) w = widCount e.eventMap w :=
    widCount_ensureTopic e.eventMap t w
  rcases hres : invokeSnapshot t { e with eventMap := ensureTopic e.eventMap t }
      (mapGetD (ensureTopic e.eventMap t) t) [] with ⟨e2, inv, res⟩
  have hb1 := invokeSnapshot_bound t w (mapGetD (ensureTopic e.eventMap t) t)
    { e with eventMap := ensureTopic e.eventMap t } [] hnd1 (fun r hr => hr) hone1
  have hwfI := invokeSnapshot_wf t (mapGetD (ensureTopic e.eventMap t) t)
    { e with eventMap := ensureTopic e.eventMap t } [] hwf1
  have hwoneI := invokeSnapshot_wone t w (mapGetD (ensureTopic e.eventMap t) t)
    { e with eventMap := ensureTopic e.eventMap t } [] hwone1
  rw [hres] at hb1 hwfI hwoneI
  have hb1a : widCount e2.eventMap w + countOcc inv w
      ≤ widCount (ensureTopic e.eventMap t) w + 0 := hb1
  have hwfa : ∀ p ∈ e2.eventMap, p.2.Nodup := hwfI
  have hwonea : ∀ p ∈ e2.eventMap, ∀ r2 ∈ p.2, r2.wid = w → r2.oneShot = true := hwoneI
  cases res with
  | threw =>
    rw [emit_eq_threw e t e2 inv hres]
    refine ⟨?_, hwfa, hwonea⟩
    show countOcc inv w + widCount e2.eventMap w ≤ widCount e.eventMap w
    omega
  | completed =>
    rw [emit_eq_completed e t e2 inv hres]
    have hwf2 : ∀ p ∈ (ensureTopic e2.eventMap "*"), p.2.Nodup :=
      wf_ensureTopic e2.eventMap "*" hwfa
    have hwone2 : ∀ p ∈ (ensureTopic e2.eventMap "*"), ∀ r2 ∈ p.2, r2.wid = w → r2.oneShot = true :=
      wone_ensureTopic e2.eventMap "*" w hwonea
    have hnd2 : (mapGetD (ensureTopic e2.eventMap "*") "*").Nodup :=
      nodup_mapGetD _ "*" hwf2
    have hone2 : ∀ r ∈ mapGetD (ensureTopic e2.eventMap "*") "*", r.wid = w → r.oneShot = true :=
      oneShot_mapGetD _ "*" w hwone2
    have hwid2 : widCount (ensureTopic e2.eventMap "*") w = widCount e2.eventMap w :=
      widCount_ensureTopic e2.eventMap "*" w
    rcases hres2 : invokeSnapshot "*" { e2 with eventMap := ensureTopic e2.eventMap "*" }
        (mapGetD (ensureTopic e2.eventMap "*") "*") inv with ⟨e4, inv2, res2⟩
    have hb2 := invokeSnapshot_bound "*" w (mapGetD (ensureTopic e2.eventMap "*") "*")
      { e2 with eventMap := ensureTopic e2.eventMap "*" } inv hnd2 (fun r hr => hr) hone2
    have hwfI2 := invokeSnapshot_wf "*" (mapGetD (ensureTopic e2.eventMap "*") "*")
      { e2 with eventMap := ensureTopic e2.eventMap "*" } inv hwf2
    have hwoneI2 := invokeSnapshot_wone "*" w (mapGetD (ensureTopic e2.eventMap "*") "*")
      { e2 with eventMap := ensureTopic e2.eventMap "*" } inv hwone2
    rw [hres2] at hb2 hwfI2 hwoneI2
    have hb2a : widCount e4.eventMap w + countOcc inv2 w
        ≤ widCount (ensureTopic e2.eventMap "*") w + countOcc inv w := hb2
    have hwfb : ∀ p ∈ e4.eventMap, p.2.Nodup := hwfI2
    have hwoneb : ∀ p ∈ e4.eventMap, ∀ r2 ∈ p.2, r2.wid = w → r2.oneShot = true := hwoneI2
    refine ⟨?_, hwfb, hwoneb⟩
    show countOcc inv2 w + widCount e4.eventMap w ≤ widCount e.eventMap w
    omega

theorem emitSeq_w (ts : List String) :
    ∀ (e : Emitter) (w : Nat), EmitterWf e → WOneShot e w →
    countOcc (emitSeq e ts).2 w + widCount (emitSeq e ts).1.eventMap w
      ≤ widCount e.eventMap w := by
  induction ts with
  | nil =>
    intro e w _ _
    simp [emitSeq, countOcc]
  | cons t ts ih =>
    intro e w hwf hwone
    obtain ⟨hb, hwf2, hwone2⟩ := emit_w e t w hwf hwone
    rcases hres : e.emit t with ⟨e2, inv, res⟩
    rw [hres] at hb hwf2 hwone2
    have hba : countOcc inv w + widCount e2.eventMap w ≤ widCount e.eventMap w := hb
    have hwfa : EmitterWf e2 := hwf2
    have hwonea : WOneShot e2 w := hwone2
    have hrec := ih e2 w hwfa hwonea
    rcases hres2 : emitSeq e2 ts with ⟨e3, invs⟩
    rw [hres2] at hrec
    have hreca : countOcc invs w + widCount e3.eventMap w ≤ widCount e2.eventMap w := hrec
    have hseq : emitSeq e (t :: ts) = (e3, inv ++ invs) := by
      simp only [emitSeq, hres, hres2]
    rw [hseq]
    show countOcc (inv ++ invs) w + widCount e3.eventMap w ≤ widCount e.eventMap w
    rw [countOcc_append]
    omega

theorem widCount_zero_no_w (m : List (String × List Reg)) (w : Nat)
    (h : widCount m w = 0) : ∀ p ∈ m, ∀ r ∈ p.2, r.wid ≠ w := by
  induction m with
  | nil => simp
  | cons q rest ih =>
    obtain ⟨t2, l⟩ := q
    rw [widCount_cons] at h
    intro p hp r hr
    rcases List.mem_cons.mp hp with hh | hh
    · intro hc
      have hrl : r ∈ l := by rw [hh] at hr; exact hr
      have hpos := countW_pos_of_mem l r hrl
      rw [hc] at hpos
      omega
    · exact ih (by omega) p hh r hr

theorem mem_mapAdd_cases (m : List (String × List Reg)) (t : String) (r : Reg) :
    ∀ p ∈ mapAdd m t r, ∀ x ∈ p.2, (∃ q ∈ m, x ∈ q.2) ∨ x = r := by
  induction m with
  | nil =>
    intro p hp x hx
    rw [mapAdd] at hp
    rcases List.mem_cons.mp hp with hh | hh
    · rw [hh] at hx
      right
      simpa using hx
    · cases hh
  | cons q2 rest ih =>
    obtain ⟨t2, l⟩ := q2
    intro p hp x hx
    by_cases ht : t2 = t
    · rw [mapAdd, if_pos ht] at hp
      rcases List.mem_cons.mp hp with hh | hh
      · rw [hh] at hx
        unfold addIfAbsent at hx
        split at hx
        · left
          exact ⟨(t2, l), List.mem_cons_self _ _, hx⟩
        · rcases List.mem_append.mp hx with hx1 | hx1
          · left
            exact ⟨(t2, l), List.mem_cons_self _ _, hx1⟩
          · right
            simpa using hx1
      · left
        exact ⟨p, List.mem_cons_of_mem _ hh, hx⟩
    · rw [mapAdd, if_neg ht] at hp
      rcases List.mem_cons.mp hp with hh | hh
      · rw [hh] at hx
        left
        exact ⟨(t2, l), List.mem_cons_self _ _, hx⟩
      · rcases ih p hh x hx with h1 | h1
        · obtain ⟨q, hq, hxq⟩ := h1
          left
          exact ⟨q, List.mem_cons_of_mem _ hq, hxq⟩
        · right
          exact h1

theorem widCount_mapAdd_fresh (m : List (String × List Reg)) (t : String) (r : Reg)
    (h : widCount m r.wid = 0) : widCount (mapAdd m t r) r.wid = 1 := by
  induction m with
  | nil =>
    simp [mapAdd, widCount, countW]
  | cons q rest ih =>
    obtain ⟨t2, l⟩ := q
    rw [widCount_cons] at h
    have hl : countW l r.wid = 0 := by omega
    have hrest : widCount rest r.wid = 0 := by omega
    by_cases ht : t2 = t
    · rw [mapAdd, if_pos ht, widCount_cons]
      have hnotmem : r ∉ l := by
        intro hc
        have := countW_pos_of_mem l r hc
        omega
      rw [addIfAbsent, if_neg hnotmem, countW_append]
      have hone : countW [r] r.wid = 1 := by simp [countW]
      omega
    · rw [mapAdd, if_neg ht, widCount_cons, ih hrest]
      omega

theorem nodup_append_singleton {α : Type} (l : List α) (a : α)
    (h : l.Nodup) (hm : a ∉ l) : (l ++ [a]).Nodup := by
  induction l with
  | nil => simp
  | cons x xs ih =>
    rw [List.nodup_cons] at h
    rw [List.cons_append, List.nodup_cons]
    constructor
    · intro hc
      rcases List.mem_append.mp hc with h1 | h1
      · exact h.1 h1
      · have hxa : x = a := by simpa using h1
        exact hm (by rw [← hxa]; exact List.mem_cons_self x xs)
    · exact ih h.2 (fun hc => hm (List.mem_cons_of_mem _ hc))

theorem wf_mapAdd (m : List (String × List Reg)) (t : String) (r : Reg)
    (h : ∀ p ∈ m, p.2.Nodup) : ∀ p ∈ mapAdd m t r, p.2.Nodup := by
  induction m with
  | nil =>
    intro p hp
    rw [mapAdd] at hp
    rcases List.mem_cons.mp hp with hh | hh
    · rw [hh]
      simp
    · cases hh
  | cons q rest ih =>
    obtain ⟨t2, l⟩ := q
    intro p hp
    by_cases ht : t2 = t
    · rw [mapAdd, if_pos ht] at hp
      rcases List.mem_cons.mp hp with hh | hh
      · rw [hh]
        show (addIfAbsent l r).Nodup
        unfold addIfAbsent
        split
        · exact h (t2, l) (List.mem_cons_self _ _)
        · next hnm =>
          exact nodup_append_singleton l r (h (t2, l) (List.mem_cons_self _ _)) hnm
      · exact h p (List.mem_cons_of_mem _ hh)
    · rw [mapAdd, if_neg ht] at hp
      rcases List.mem_cons.mp hp with hh | hh
      · rw [hh]
        exact h (t2, l) (List.mem_cons_self _ _)
      · exact ih (fun q hq => h q (List.mem_cons_of_mem _ hq)) p hh

theorem wone_once (e : Emitter) (t : String) (b : HBehavior)
    (hfresh : widCount e.eventMap e.nextWid = 0) :
    WOneShot (e.once t b) e.nextWid := by
  intro p hp r hr hw
  rcases mem_mapAdd_cases e.eventMap t ⟨e.nextWid, true, b⟩ p hp r hr with h1 | h1
  · obtain ⟨q, hq, hrq⟩ := h1
    exact absurd hw (widCount_zero_no_w e.eventMap e.nextWid hfresh q hq r hrq)
  · rw [h1]

/-- Claim C5: a handler registered via `once` is invoked at most one time in
total, no matter how many times its topic (or any topic) is subsequently
emitted: the fresh one-shot wrapper `once` registers (identity `e.nextWid`)
appears at most once in the whole invocation log of any following sequence of
`emit` calls.  The wrapper removes itself (`off`) before running its handler,
so the first emit deregisters it; because the orchestrator registers each
prompt waiter with `once` under a topic containing a fresh promptId, a
`PromptResponse` emitted under that promptId is delivered to at most one
waiter. -/
theorem once_handler_at_most_once (e : Emitter) (t : String) (b : HBehavior)
    (ts : List String) (hwf : EmitterWf e)
    (hfresh : widCount e.eventMap e.nextWid = 0) :
    countOcc (emitSeq (e.once t b) ts).2 e.nextWid ≤ 1 := by
  have h1 : widCount (e.once t b).eventMap e.nextWid = 1 :=
    widCount_mapAdd_fresh e.eventMap t ⟨e.nextWid, true, b⟩ hfresh
  have h2 : EmitterWf (e.once t b) := wf_mapAdd e.eventMap t ⟨e.nextWid, true, b⟩ hwf
  have h3 : WOneShot (e.once t b) e.nextWid := wone_once e t b hfresh
  have h4 := emitSeq_w ts (e.once t b) e.nextWid h2 h3
  omega

theorem invokeSnapshot_no_throw (t : String) (hs : List Reg) :
    ∀ (e : Emitter) (acc : List Nat),
    (∀ r ∈ hs, r.behavior ≠ .syncThrow) →
    (invokeSnapshot t e hs acc).2.2 = .completed ∧
    (invokeSnapshot t e hs acc).2.1 = acc ++ hs.map Reg.wid := by
  induction hs with
  | nil =>
    intro e acc _
    simp [invokeSnapshot]
  | cons r rest ih =>
    intro e acc h
    cases hb : r.behavior with
    | syncThrow => exact absurd hb (h r (List.mem_cons_self _ _))
    | ok =>
      simp only [invokeSnapshot, hb]
      have hrec := ih (if r.oneShot = true then
        { e with eventMap := mapRemove e.eventMap t r } else e) (acc ++ [r.wid])
        (fun x hx => h x (List.mem_cons_of_mem _ hx))
      refine ⟨hrec.1, ?_⟩
      rw [hrec.2]
      simp
    | asyncReject =>
      simp only [invokeSnapshot, hb]
      have hrec := ih (if r.oneShot = true then
        { e with eventMap := mapRemove e.eventMap t r } else e) (acc ++ [r.wid])
        (fun x hx => h x (List.mem_cons_of_mem _ hx))
      refine ⟨hrec.1, ?_⟩
      rw [hrec.2]
      simp

theorem invokeSnapshot_map_other (t : String) (hs : List Reg) :
    ∀ (e : Emitter) (acc : List Nat) (t2 : String), t ≠ t2 →
    mapGetD (invokeSnapshot t e hs acc).1.eventMap t2 = mapGetD e.eventMap t2 := by
  induction hs with
  | nil =>
    intro e acc t2 _
    simp [invokeSnapshot]
  | cons r rest ih =>
    intro e acc t2 hne
    have hst : mapGetD (if r.oneShot = true then
        { e with eventMap := mapRemove e.eventMap t r } else e).eventMap t2
        = mapGetD e.eventMap t2 := by
      split
      · exact mapGetD_mapRemove_ne e.eventMap t t2 r hne
      · rfl
    cases hb : r.behavior with
    | syncThrow =>
      simp only [invokeSnapshot, hb]
      exact hst
    | ok =>
      simp only [invokeSnapshot, hb]
      rw [ih _ _ _ hne, hst]
    | asyncReject =>
      simp only [invokeSnapshot, hb]
      rw [ih _ _ _ hne, hst]

/-- Claim C9 as amended: `emit` invokes every currently registered handler of
the topic (in registration order) and then every wildcard handler, and
completes without raising, provided no handler throws synchronously — a
handler whose returned promise rejects is merely collected into
`Promise.allSettled`, whose failures are swallowed and never surfaced to the
caller of `emit`.  A synchronously throwing handler, by contrast, propagates
out of `emit` and aborts the remaining handlers (see `emit_sync_throw_cx`). -/
theorem emit_all_handlers_no_sync_throw (e : Emitter) (t : String) (ht : t ≠ "*")
    (h1 : ∀ r ∈ mapGetD e.eventMap t, r.behavior ≠ .syncThrow)
    (h2 : ∀ r ∈ mapGetD e.eventMap "*", r.behavior ≠ .syncThrow) :
    (e.emit t).2.2 = .completed ∧
    (e.emit t).2.1 = (mapGetD e.eventMap t).map Reg.wid
        ++ (mapGetD e.eventMap "*").map Reg.wid := by
  have hget1 : mapGetD (ensureTopic e.eventMap t) t = mapGetD e.eventMap t :=
    mapGetD_ensureTopic e.eventMap t t
  rcases hres : invokeSnapshot t { e with eventMap := ensureTopic e.eventMap t }
      (mapGetD (ensureTopic e.eventMap t) t) [] with ⟨e2, inv, res⟩
  have hnt := invokeSnapshot_no_throw t (mapGetD (ensureTopic e.eventMap t) t)
    { e with eventMap := ensureTopic e.eventMap t } [] (by rw [hget1]; exact h1)
  rw [hres] at hnt
  have hnt1 : res = .completed := hnt.1
  have hnt2 : inv = [] ++ (mapGetD (ensureTopic e.eventMap t) t).map Reg.wid := hnt.2
  subst hnt1
  rw [emit_eq_completed e t e2 inv hres]
  have hother := invokeSnapshot_map_other t (mapGetD (ensureTopic e.eventMap t) t)
    { e with eventMap := ensureTopic e.eventMap t } [] "*" ht
  rw [hres] at hother
  have hother2 : mapGetD e2.eventMap "*"
      = mapGetD (ensureTopic e.eventMap t) "*" := hother
  have hstar : mapGetD (ensureTopic e.eventMap t) "*" = mapGetD e.eventMap "*" :=
    mapGetD_ensureTopic e.eventMap t "*"
  have hget2 : mapGetD (ensureTopic e2.eventMap "*") "*" = mapGetD e2.eventMap "*" :=
    mapGetD_ensureTopic e2.eventMap "*" "*"
  have hnt3 := invokeSnapshot_no_throw "*" (mapGetD (ensureTopic e2.eventMap "*") "*")
    { e2 with eventMap := ensureTopic e2.eventMap "*" } inv
    (by rw [hget2, hother2, hstar]; exact h2)
  refine ⟨hnt3.1, ?_⟩
  rw [hnt3.2, hget2, hother2, hstar, hnt2, hget1]
  simp

theorem regsFor_ensureTopicP (m : List (String × List PendingReg)) (t : String) :
    regsFor (ensureTopicP m t) t = regsFor m t := by
  induction m with
  | nil => simp [ensureTopicP, regsFor, assocGet]
  | cons p rest ih =>
    obtain ⟨t2, l⟩ := p
    by_cases ht : t2 = t
    · rw [ensureTopicP, if_pos ht]
    · rw [ensureTopicP, if_neg ht]
      simp only [regsFor, assocGet, if_neg ht] at ih ⊢
      exact ih

/-- Claim C8 as amended: a `PROMPT_RESPONSE` whose promptId has no registered
waiter signals nothing — no handler is invoked, nothing is broadcast (no
`ERROR`), no exception is raised, and the system state is unchanged except
that `getEventHandlers` creates empty handler-set entries for the unknown
topic and for the wildcard topic in the emitter's map (an observationally
inert leak; the claim's "no state changes" is refuted by exactly this, see
`unroutable_response_state_change_cx`). -/
theorem unroutable_response_silent (s : Sys) (pid : String) (resp : PromptResponseV)
    (h : regsFor s.regs ("prompt-" ++ pid) = []) :
    emitPromptResponse s pid resp =
      { s with regs := ensureTopicP (ensureTopicP s.regs ("prompt-" ++ pid)) "*" } := by
  have h2 : regsFor ({ s with regs := ensureTopicP s.regs ("prompt-" ++ pid) } : Sys).regs
      ("prompt-" ++ pid) = [] := by
    show regsFor (ensureTopicP s.regs ("prompt-" ++ pid)) ("prompt-" ++ pid) = []
    rw [regsFor_ensureTopicP]
    exact h
  simp only [emitPromptResponse]
  rw [h2]
  rfl


theorem once_handler_at_most_once_witness :
    EmitterWf demoEmitter ∧
    widCount demoEmitter.eventMap demoEmitter.nextWid = 0 ∧
    countOcc (emitSeq (demoEmitter.once "task-done" .ok)
      ["task-done", "task-done", "task-done"]).2 demoEmitter.nextWid ≤ 1 :=
  ⟨by unfold EmitterWf; decide, by decide,
   once_handler_at_most_once demoEmitter "task-done" .ok
     ["task-done", "task-done", "task-done"] (by unfold EmitterWf; decide) (by decide)⟩

/-- Claim C9, counterexample: with a synchronously throwing handler registered
first, `emit` itself raises (the throw propagates out of the `forEach`;
nothing in `emit` catches it) and the second handler is never invoked —
refuting both that every registered handler is invoked and that `emit`
completes without raising when a handler fails synchronously. -/
theorem emit_sync_throw_cx :
    (throwingEmitter.emit "task-done").2.2 = .threw ∧
    (throwingEmitter.emit "task-done").2.1 = [1] := by
  decide

theorem emit_all_handlers_witness :
    (("task-done" : String) ≠ "*") ∧
    (∀ r ∈ mapGetD mixedEmitter.eventMap "task-done", r.behavior ≠ .syncThrow) ∧
    (∀ r ∈ mapGetD mixedEmitter.eventMap "*", r.behavior ≠ .syncThrow) ∧
    ((mixedEmitter.emit "task-done").2.2 = .completed ∧
     (mixedEmitter.emit "task-done").2.1 =
       (mapGetD mixedEmitter.eventMap "task-done").map Reg.wid
         ++ (mapGetD mixedEmitter.eventMap "*").map Reg.wid) :=
  ⟨by decide, by decide, by decide,
   emit_all_handlers_no_sync_throw mixedEmitter "task-done"
     (by decide) (by decide) (by decide)⟩

/-- Claim C8, counterexample: processing a `PROMPT_RESPONSE` with an unknown
promptId broadcasts nothing and invokes no handler (empty delivered list and
event log), yet the state does change — the emitter's map gains empty entries
for the unknown topic and the wildcard topic — so the resulting state differs
from the initial one, refuting the claim's "no state changes". -/
theorem unroutable_response_state_change_cx :
    (runMsgs [.promptResponse "nope" ⟨true, none⟩]).delivered = [] ∧
    (runMsgs [.promptResponse "nope" ⟨true, none⟩]).events = [] ∧
    (runMsgs [.promptResponse "nope" ⟨true, none⟩]).regs
      = [("prompt-nope", []), ("*", [])] ∧
    runMsgs [.promptResponse "nope" ⟨true, none⟩] ≠ initSys := by
  decide

theorem unroutable_response_silent_witness :
    regsFor strayRegSys.regs ("prompt-" ++ "nope") = [] ∧
    emitPromptResponse strayRegSys "nope" ⟨true, none⟩ =
      { strayRegSys with
          regs := ensureTopicP (ensureTopicP strayRegSys.regs ("prompt-" ++ "nope")) "*" } :=
  ⟨by decide, unroutable_response_silent strayRegSys "nope" ⟨true, none⟩ (by decide)⟩


end PwaSigner
